import Mathlib

set_option maxRecDepth 8192
set_option linter.unusedVariables false

namespace LlmCtxEnv

/-- Go strings are modelled as lists of characters. -/
abbrev GoStr := List Char

/-- Turns a Lean string literal into the `GoStr` model. -/
def gs (s : String) : GoStr := s.data

/-! ### Primitives of Go's `strings` and `path/filepath` packages,
modelled for POSIX-style paths (separator `/`). -/

/-- `strings.HasPrefix s pat`: does `s` start with `pat`? -/
def startsWith : GoStr → GoStr → Bool
  | _, [] => true
  | [], _ :: _ => false
  | c :: cs, p :: ps => if c = p then startsWith cs ps else false

/-- `strings.TrimPrefix s pat`: drop the leading `pat` from `s` when present. -/
def trimPre (s pat : GoStr) : GoStr :=
  if startsWith s pat then s.drop pat.length else s

/-- One step of splitting: prepend character `c` to an already-split
tail (a new empty component after a separator, otherwise extend the
first component). -/
def splitSepCons (c : Char) (r : List GoStr) : List GoStr :=
  match r with
  | g :: gl => if c = '/' then [] :: g :: gl else (c :: g) :: gl
  | [] => [[]]

/-- Split a string at every `/` (the list of path components; never empty). -/
def splitSep : GoStr → List GoStr
  | [] => [[]]
  | c :: rest => splitSepCons c (splitSep rest)

/-- `strings.Join` with separator `/`: interleave `/` between the pieces. -/
def joinSep : List GoStr → GoStr
  | [] => []
  | [x] => x
  | x :: y :: yl => x ++ '/' :: joinSep (y :: yl)

/-- One step of `filepath.Clean`'s component processing: push a component on
the stack, where `..` pops a non-`..` top (and vanishes at the root). -/
def stepComp (rooted : Bool) (stack : List GoStr) (c : GoStr) : List GoStr :=
  if c = ['.', '.'] then
    match stack with
    | t :: rest => if t = ['.', '.'] then c :: t :: rest else rest
    | [] => if rooted then [] else [c]
  else c :: stack

/-- The component stack produced by `filepath.Clean` on components `cl`. -/
def cleanStack (rooted : Bool) (cl : List GoStr) : List GoStr :=
  (cl.foldl (stepComp rooted) []).reverse

/-- `filepath.Clean` (POSIX): lexical path normalisation. -/
def Clean (p : GoStr) : GoStr :=
  let rooted := startsWith p ['/']
  let comps := (splitSep p).filter fun c => decide (c ≠ []) && decide (c ≠ ['.'])
  let out := cleanStack rooted comps
  if out = [] then (if rooted then ['/'] else ['.'])
  else (if rooted then ['/'] else []) ++ joinSep out

/-- `filepath.Join`: drop leading empty elements, join the rest with `/`,
then `Clean` the result; all-empty input gives the empty path. -/
def goJoin : List GoStr → GoStr
  | [] => []
  | e :: es => if e = [] then goJoin es else Clean (joinSep (e :: es))

/-- `filepath.IsAbs` (POSIX): the path starts with `/`. -/
def isAbs (p : GoStr) : Bool := startsWith p ['/']

/-! ### The `contextmanager` package -/

/-- The 26 uppercase ASCII letters, each mapped by the replacer. -/
def upperChars : List Char :=
  ['A', 'B', 'C', 'D', 'E', 'F', 'G', 'H', 'I', 'J', 'K', 'L', 'M',
   'N', 'O', 'P', 'Q', 'R', 'S', 'T', 'U', 'V', 'W', 'X', 'Y', 'Z']

/-- Characters the sanitizer eliminates: the separator, the dot, and
uppercase ASCII letters. -/
def badChars : List Char := '/' :: '.' :: upperChars

/-- The ordered pattern/replacement pairs handed to `strings.NewReplacer`:
`.` and the path separator become `-`, and each uppercase ASCII letter
`X` becomes `!x`. -/
def replacePairs : List (Char × GoStr) :=
  [('.', ['-']), ('/', ['-']),
   ('A', ['!', 'a']), ('B', ['!', 'b']), ('C', ['!', 'c']), ('D', ['!', 'd']),
   ('E', ['!', 'e']), ('F', ['!', 'f']), ('G', ['!', 'g']), ('H', ['!', 'h']),
   ('I', ['!', 'i']), ('J', ['!', 'j']), ('K', ['!', 'k']), ('L', ['!', 'l']),
   ('M', ['!', 'm']), ('N', ['!', 'n']), ('O', ['!', 'o']), ('P', ['!', 'p']),
   ('Q', ['!', 'q']), ('R', ['!', 'r']), ('S', ['!', 's']), ('T', ['!', 't']),
   ('U', ['!', 'u']), ('V', ['!', 'v']), ('W', ['!', 'w']), ('X', ['!', 'x']),
   ('Y', ['!', 'y']), ('Z', ['!', 'z'])]

/-- What `dirnameReplacer` substitutes for one character: the first
matching pattern's replacement, or the character itself.  (With
single-byte, pairwise distinct patterns, `strings.NewReplacer` acts
independently on each byte of its input.) -/
def replaceChar (c : Char) : GoStr :=
  match replacePairs.find? fun p => p.1 == c with
  | some p => p.2
  | none => [c]

/-- `dirnameReplacer.Replace`: apply `replaceChar` to every character. -/
def dirnameReplace (s : GoStr) : GoStr := s.flatMap replaceChar

/-- `cmp.Or` on strings: the first argument unless it is empty. -/
def cmpOr (a b : GoStr) : GoStr := if a = [] then b else a

/-- `LLMCtxEnvRoot`: the root-override environment variable when non-empty,
otherwise `filepath.Join(HOME, ".llmctxenv")`. -/
def llmCtxEnvRoot (envRoot home : GoStr) : GoStr :=
  cmpOr envRoot (goJoin [home, gs ".llmctxenv"])

/-- `GlobalDir`: `filepath.Join(root, "global", provider)`. -/
def GlobalDir (root provider : GoStr) : GoStr :=
  goJoin [root, gs "global", provider]

/-- The process environment consulted by `LocalDir`: the results of
`os.Getwd`, `filepath.Abs` and `os.UserHomeDir`. -/
structure GoEnv where
  getwd : Except GoStr GoStr
  abs : GoStr → Except GoStr GoStr
  userHomeDir : Except GoStr GoStr

/-- `LocalDir provider projectDir` under environment `env` and root `root`:
returns the pair (path, error) exactly as the Go function returns
`(string, error)`; failures yield the empty path.  A failing `filepath.Abs`
is ignored and the relative working directory is kept as-is. -/
def LocalDir (env : GoEnv) (root provider projectDir : GoStr) :
    GoStr × Option GoStr :=
  match env.getwd with
  | .error e => ([], some (gs "get current directory: " ++ e))
  | .ok wd =>
    let path :=
      if isAbs wd then wd
      else
        match env.abs wd with
        | .ok a => a
        | .error _ => wd
    match env.userHomeDir with
    | .error e => ([], some (gs "get current user home directory: " ++ e))
    | .ok home =>
      let stripped := trimPre path (home ++ ['/'])
      let sanitized := dirnameReplace stripped
      (goJoin [root, gs "local", provider, sanitized], none)

/-- The environment of test scenario A: home `/home/user`, working directory
`/home/user/projects/myapp`. -/
def envScenarioA : GoEnv :=
  ⟨.ok (gs "/home/user/projects/myapp"), fun s => .ok s, .ok (gs "/home/user")⟩

/-- The environment of test scenario B: working directory equal to the home
directory `/home/user`. -/
def envScenarioB : GoEnv :=
  ⟨.ok (gs "/home/user"), fun s => .ok s, .ok (gs "/home/user")⟩

/-- An environment whose working directory is relative and cannot be
resolved to an absolute path (`filepath.Abs` fails). -/
def envRelCwd : GoEnv :=
  ⟨.ok (gs "rel/path"), fun _ => .error (gs "cannot resolve"), .ok (gs "/home/user")⟩

/-- A plain path component: non-empty, not `.` or `..`, and without a
separator.  Such components pass through `filepath.Clean` untouched. -/
def simpleComp (c : GoStr) : Prop :=
  c ≠ [] ∧ c ≠ ['.'] ∧ c ≠ ['.', '.'] ∧ '/' ∉ c

instance (c : GoStr) : Decidable (simpleComp c) := by
  unfold simpleComp; infer_instance

/-- A clean absolute path: starts with `/` and all of its components are
plain (`Clean` maps such a path to itself). -/
def cleanAbs (r : GoStr) : Prop :=
  r.head? = some '/' ∧ ∀ c ∈ splitSep r.tail, simpleComp c

instance (r : GoStr) : Decidable (cleanAbs r) := by
  unfold cleanAbs; infer_instance

/-! ### The `fileio` hashing model -/

/-- The error taxonomy surfaced by the file I/O helpers. -/
inductive Err where
  | notFound
  | alreadyExists
  | notDir
  | isDir
  | readFail
deriving DecidableEq

/-- A file as seen by `HashFile`: its byte content, plus whether reading
it fails mid-stream. -/
structure GoFile where
  content : List Nat
  readErr : Bool
deriving DecidableEq

/-- The abstract file system consulted by `HashFile`: a path resolves to
a file or to nothing (open failure). -/
abbrev HFS := GoStr → Option GoFile

/-- The sixteen lowercase hexadecimal digits, as in the hextable constant
of package encoding/hex. -/
def hexDigits : List Char := gs "0123456789abcdef"

/-- Hex encoding of one byte: high nibble then low nibble. -/
def hexEncodeByte (b : Nat) : GoStr :=
  [hexDigits.getD (b % 256 / 16) '0', hexDigits.getD (b % 16) '0']

/-- Hex encoding of a byte string (lowercase). -/
def hexEncode (bs : List Nat) : GoStr := bs.flatMap hexEncodeByte

/-- `hex.Encode dst src`: overwrite the first `2·|src|` bytes of `dst`
with the encoding of `src`, keeping the remaining bytes of `dst`; the
result keeps `dst`'s length. -/
def hexEncodeInto (dst : GoStr) (src : List Nat) : GoStr :=
  (hexEncode src ++ dst.drop (2 * src.length)).take dst.length

/-- Split a byte string into chunks of `n` bytes (32 KiB both for the
pooled copy buffers and for `io.Copy`'s default buffer). -/
def chunksGo (n : Nat) : List Nat → List (List Nat)
  | [] => []
  | a :: rest =>
    if h : n = 0 then []
    else (a :: rest).take n :: chunksGo n ((a :: rest).drop n)
termination_by l => l.length
decreasing_by
  simp only [List.length_drop, List.length_cons]
  omega

/-- The byte stream an incremental hash state accumulates when a file's
content is written to it chunk by chunk. -/
def feedChunks (l : List Nat) : List Nat :=
  (chunksGo 32768 l).foldl (fun acc chunk => acc ++ chunk) []

/-- The pooled `HashFile`: open the file; stream its bytes through the
pooled hash state using a pooled 32 KiB copy buffer; `Sum` into a pooled
digest buffer; hex-encode into a pooled 64-byte buffer; return an owned
copy of the first `2·|digest|` encoded bytes. -/
def HashFilePooled (H : List Nat → List Nat) (fs : HFS) (path : GoStr) :
    Except Err GoStr :=
  match fs path with
  | none => .error .notFound
  | some f =>
    if f.readErr then .error .readFail
    else
      let sum := H (feedChunks f.content)
      let hexbuf := hexEncodeInto (List.replicate 64 (Char.ofNat 0)) sum
      .ok (hexbuf.take (2 * sum.length))

/-- The streaming `HashFile` variant: open the file; `io.Copy` its bytes
into the pooled hash state; `Sum nil`; hex-encode into a pooled 64-byte
buffer and return a string over that whole buffer (zero-copy cast). -/
def HashFileStream (H : List Nat → List Nat) (fs : HFS) (path : GoStr) :
    Except Err GoStr :=
  match fs path with
  | none => .error .notFound
  | some f =>
    if f.readErr then .error .readFail
    else
      let src := H (feedChunks f.content)
      let dst := hexEncodeInto (List.replicate 64 (Char.ofNat 0)) src
      .ok dst

/-! ### The `fileio` file-system model for `CopyFile` and `CopyDir` -/

/-- A path component (a file or directory name). -/
abbrev Name := GoStr

/-- A path, as its list of components. -/
abbrev Path := List Name

/-- A file-system entry: a regular file (content and permission bits) or
a directory (permission bits). -/
inductive Entry where
  | file (content : List Nat) (perm : Nat)
  | dir (perm : Nat)
deriving DecidableEq

/-- A file system: an association list from paths to entries, where later
insertions shadow earlier ones. -/
abbrev FS := List (Path × Entry)

/-- Look up the entry at a path. -/
def lookup (fs : FS) (p : Path) : Option Entry :=
  (fs.find? fun pe => decide (pe.1 = p)).map Prod.snd

/-- Create an entry (shadowing any earlier entry at the same path). -/
def fsInsert (fs : FS) (p : Path) (e : Entry) : FS := (p, e) :: fs

/-- Well-formed file system: the parent of every entry either is the root
or exists as a directory. -/
def WF (fs : FS) : Prop :=
  ∀ p n, (lookup fs (p ++ [n])).isSome →
    p = [] ∨ ∃ d, lookup fs p = some (.dir d)

/-- `os.MkdirAll` on the reversed path (so the recursion into the parent
is structural): an existing directory is kept as-is, an existing file is
`ENOTDIR`, and otherwise the parents are created first. -/
def mkdirAllRev (fs : FS) (perm : Nat) : List Name → Except Err FS
  | [] => .ok fs
  | n :: restRev =>
    match lookup fs ((n :: restRev).reverse) with
    | some (.dir _) => .ok fs
    | some (.file _ _) => .error .notDir
    | none =>
      match mkdirAllRev fs perm restRev with
      | .error e => .error e
      | .ok fs1 => .ok (fsInsert fs1 ((n :: restRev).reverse) (.dir perm))

/-- `os.MkdirAll fs p perm`. -/
def mkdirAll (fs : FS) (p : Path) (perm : Nat) : Except Err FS :=
  mkdirAllRev fs perm p.reverse

/-- `os.OpenFile` with `O_CREATE|O_EXCL`: `AlreadyExists` when the path
is taken, and the parent directory must exist (the empty parent is the
file-system root). -/
def openExcl (fs : FS) (p : Path) : Option Err :=
  if (lookup fs p).isSome then some .alreadyExists
  else if p.dropLast = [] then none
  else
    match lookup fs p.dropLast with
    | some (.dir _) => none
    | some (.file _ _) => some .notDir
    | none => some .notFound

/-- `CopyFile dest source perm`: open the source (`NotFound` if absent);
create the destination exclusively; stream the bytes.  Opening a source
directory succeeds but streaming from it fails `EISDIR`, after the
destination file has already been created empty.  The returned file
system is the state the call leaves behind (failures before the
exclusive create leave it untouched). -/
def CopyFile (fs : FS) (dest source : Path) (perm : Nat) : FS × Option Err :=
  match lookup fs source with
  | none => (fs, some .notFound)
  | some srcE =>
    match openExcl fs dest with
    | some e => (fs, some e)
    | none =>
      match srcE with
      | .file c _ => (fsInsert fs dest (.file c perm), none)
      | .dir _ => (fsInsert fs dest (.file [] perm), some .isDir)

/-- The name of `p` when it sits directly inside `dir`. -/
def childName (dir : Path) (p : Path) : Option Name :=
  if p.dropLast = dir then p.getLast? else none

/-- Byte-wise lexicographic order on names (Go's filename sort). -/
def nameLe : Name → Name → Bool
  | [], _ => true
  | _ :: _, [] => false
  | a :: as, b :: bs => if a = b then nameLe as bs else decide (a.toNat < b.toNat)

/-- Insert into a sorted list of names. -/
def insSorted (n : Name) : List Name → List Name
  | [] => [n]
  | m :: ms => if nameLe n m then n :: m :: ms else m :: insSorted n ms

/-- Insertion sort of names. -/
def sortNames (l : List Name) : List Name := l.foldr insSorted []

/-- The sorted, duplicate-free list of names directly inside `dir`
(what `os.ReadDir` reports). -/
def childNames (fs : FS) (dir : Path) : List Name :=
  sortNames ((fs.filterMap fun pe => childName dir pe.1).dedup)

/-- `os.ReadDir`. -/
def readDir (fs : FS) (dir : Path) : Except Err (List Name) :=
  match lookup fs dir with
  | some (.dir _) => .ok (childNames fs dir)
  | some (.file _ _) => .error .notDir
  | none => .error .notFound

/-- The entry loop of `CopyDir`, parameterised over the recursive call:
stat each entry; a directory gets `MkdirAll` and a recursive copy; any
other entry gets `MkdirAll` of the destination's parent followed by
`CopyFile` carrying the source's permission bits.  `none` marks fuel
exhaustion inside the recursion. -/
def copyEntriesGo (recur : FS → Path → Path → Option (FS × Option Err))
    (src dest : Path) : FS → List Name → Option (FS × Option Err)
  | fs, [] => some (fs, none)
  | fs, n :: rest =>
    match lookup fs (src ++ [n]) with
    | none => some (fs, some .notFound)
    | some (.dir _) =>
      match mkdirAll fs (dest ++ [n]) 493 with
      | .error e => some (fs, some e)
      | .ok fs2 =>
        match recur fs2 (src ++ [n]) (dest ++ [n]) with
        | none => none
        | some (fs3, some e) => some (fs3, some e)
        | some (fs3, none) => copyEntriesGo recur src dest fs3 rest
    | some (.file c p) =>
      match mkdirAll fs (dest ++ [n]).dropLast 493 with
      | .error e => some (fs, some e)
      | .ok fs2 =>
        match CopyFile fs2 (dest ++ [n]) (src ++ [n]) p with
        | (fs3, some e) => some (fs3, some e)
        | (fs3, none) => copyEntriesGo recur src dest fs3 rest

/-- `CopyDir fuel fs srcDir destDir`: create the destination directory
(permission `0o755`), list the source directory, and copy every entry in
order; `none` when the recursion depth exceeds `fuel` (the Go function
recurses without bound). -/
def CopyDir : Nat → FS → Path → Path → Option (FS × Option Err)
  | 0, _, _, _ => none
  | fuel + 1, fs, src, dest =>
    match mkdirAll fs dest 493 with
    | .error e => some (fs, some e)
    | .ok fs1 =>
      match readDir fs1 src with
      | .error e => some (fs1, some e)
      | .ok names => copyEntriesGo (CopyDir fuel) src dest fs1 names

/-- What a successful tree copy produces from one source entry: files
keep content and permission bits, directories are re-created with
permission `0o755`. -/
def copyEntry : Entry → Entry
  | .file c p => .file c p
  | .dir _ => .dir 493

/-- Does a directory exist at `q` (a decidable check used to establish
`WF` on concrete file systems)? -/
def isDirAt (fs : FS) (q : Path) : Bool :=
  match lookup fs q with
  | some (.dir _) => true
  | _ => false

/-- A concrete file system whose destination directory already exists and
already holds a stray file `z` (used against claim C3 as stated). -/
def fsCX : FS :=
  [([gs "src"], Entry.dir 493), ([gs "src", gs "x"], Entry.file [1] 420),
   ([gs "dst"], Entry.dir 493), ([gs "dst", gs "z"], Entry.file [2] 420)]

/-- The result of copying `src` over the pre-populated `dst` in `fsCX`. -/
def fsCX' : FS := ([gs "dst", gs "x"], Entry.file [1] 420) :: fsCX

/-- A concrete source tree with one file, and a fresh destination. -/
def fsC3 : FS :=
  [([gs "s"], Entry.dir 493), ([gs "s", gs "a"], Entry.file [9] 420)]

/-- The result of copying `s` to the fresh destination `t` in `fsC3`. -/
def fsC3' : FS :=
  ([gs "t", gs "a"], Entry.file [9] 420) :: ([gs "t"], Entry.dir 493) :: fsC3

/-! ### Sanitizer lemmas -/

theorem replaceChar_fix (c : Char) (hc : c ∉ badChars) : replaceChar c = [c] := by
  unfold replaceChar
  cases hf : replacePairs.find? fun p => p.1 == c with
  | none => rfl
  | some p =>
    exfalso
    have hp : p ∈ replacePairs := List.mem_of_find?_eq_some hf
    have hpc : p.1 = c := by simpa using List.find?_some hf
    have hkeys : ∀ q ∈ replacePairs, q.1 ∈ badChars := by decide
    exact hc (hpc ▸ hkeys p hp)

theorem replaceChar_good (c d : Char) (hd : d ∈ replaceChar c) : d ∉ badChars := by
  unfold replaceChar at hd
  cases hf : replacePairs.find? fun p => p.1 == c with
  | none =>
    rw [hf] at hd
    simp only [List.mem_singleton] at hd
    rw [hd]
    intro hcb
    have hnone := List.find?_eq_none.mp hf
    have hkey : ∀ x ∈ badChars, ∃ p ∈ replacePairs, p.1 = x := by decide
    obtain ⟨p, hp, hpc⟩ := hkey c hcb
    exact hnone p hp (by simpa using hpc)
  | some p =>
    rw [hf] at hd
    have hp : p ∈ replacePairs := List.mem_of_find?_eq_some hf
    have hall : ∀ q ∈ replacePairs, ∀ e ∈ q.2, e ∉ badChars := by decide
    exact hall p hp d hd

theorem flatMap_replaceChar_fix (l : GoStr) (h : ∀ d ∈ l, replaceChar d = [d]) :
    l.flatMap replaceChar = l := by
  induction l with
  | nil => rfl
  | cons a l ih =>
    rw [List.flatMap_cons, h a (List.mem_cons_self a l),
      ih fun d hd => h d (List.mem_cons_of_mem a hd)]
    rfl

/-! ### Claim theorems (contextmanager) -/

/-- C4: for provider `claude`, home `/home/user`, cwd
`/home/user/projects/myapp` and root `/tmp/test-llmctx`, `LocalDir`
returns exactly `/tmp/test-llmctx/local/claude/projects-myapp`. -/
theorem c4_localDir_scenarioA :
    LocalDir envScenarioA (gs "/tmp/test-llmctx") (gs "claude") [] =
      (gs "/tmp/test-llmctx/local/claude/projects-myapp", none) := by
  decide

/-- C1 counterexample: with cwd equal to the home directory `/home/user`,
`LocalDir` does not return the claimed `/tmp/test-llmctx/local/claude/`
(the home prefix is not stripped, since `TrimPrefix` is given
`/home/user/` with a trailing separator, which is not a prefix of
`/home/user`); the returned path ends in the component `-home-user`. -/
theorem c1_counterexample :
    LocalDir envScenarioB (gs "/tmp/test-llmctx") (gs "claude") [] =
      (gs "/tmp/test-llmctx/local/claude/-home-user", none) ∧
    (gs "/tmp/test-llmctx/local/claude/-home-user", (none : Option GoStr)) ≠
      (gs "/tmp/test-llmctx/local/claude/", (none : Option GoStr)) := by
  constructor
  · decide
  · decide

/-- C1 amended: with cwd equal to home, the pattern `home ++ "/"` does not
start the cwd, so nothing is stripped; `/home/user` sanitizes to
`-home-user` and `LocalDir` returns the root joined with `local`,
`claude` and `-home-user`. -/
theorem c1_localDir_cwd_eq_home :
    trimPre (gs "/home/user") (gs "/home/user/") = gs "/home/user" ∧
    dirnameReplace (gs "/home/user") = gs "-home-user" ∧
    LocalDir envScenarioB (gs "/tmp/test-llmctx") (gs "claude") [] =
      (gs "/tmp/test-llmctx/local/claude/-home-user", none) := by
  refine ⟨by decide, by decide, by decide⟩

/-- C5: the sanitized output never contains a path separator, a literal
dot, or an uppercase ASCII letter. -/
theorem c5_sanitized_no_bad_chars (s : GoStr) (c : Char)
    (h : c ∈ dirnameReplace s) : c ≠ '/' ∧ c ≠ '.' ∧ c ∉ upperChars := by
  have hbad : c ∉ badChars := by
    rw [dirnameReplace, List.mem_flatMap] at h
    obtain ⟨a, _, hac⟩ := h
    exact replaceChar_good a c hac
  simpa [badChars, not_or] using hbad

/-- C5 witness: a concrete instance of the sanitizer-output property. -/
theorem c5_witness : '!' ≠ '/' ∧ '!' ≠ '.' ∧ '!' ∉ upperChars :=
  c5_sanitized_no_bad_chars (gs "A") '!' (by decide)

/-- C6: the sanitizer is idempotent on its own output:
`sanitize (sanitize s) = sanitize s` for every string `s`. -/
theorem c6_sanitize_idempotent (s : GoStr) :
    dirnameReplace (dirnameReplace s) = dirnameReplace s := by
  unfold dirnameReplace
  apply flatMap_replaceChar_fix
  intro d hd
  rw [List.mem_flatMap] at hd
  obtain ⟨c, _, hdc⟩ := hd
  exact replaceChar_fix d (replaceChar_good c d hdc)

/-- C8 counterexample: when the working directory is relative and
`filepath.Abs` fails, `LocalDir` does not fail: the `Abs` error is
silently discarded and the relative path is used as-is, so the call
succeeds with a non-empty path (the claim says it fails with an
environment error and an empty path). -/
theorem c8_counterexample :
    LocalDir envRelCwd (gs "/tmp/test-llmctx") (gs "claude") [] =
      (gs "/tmp/test-llmctx/local/claude/rel-path", none) := by
  decide

/-- C8 amended: `LocalDir` fails (returning an error together with the
empty path) exactly when the working directory or the home directory is
unavailable; a failing `filepath.Abs` on a relative working directory is
ignored and the relative path is kept; every failure returns the empty
path. -/
theorem c8_localDir_failure_modes (env : GoEnv) (root provider d : GoStr) :
    (∀ e, env.getwd = .error e →
      LocalDir env root provider d =
        ([], some (gs "get current directory: " ++ e))) ∧
    (∀ wd e, env.getwd = .ok wd → env.userHomeDir = .error e →
      LocalDir env root provider d =
        ([], some (gs "get current user home directory: " ++ e))) ∧
    (∀ wd e home, env.getwd = .ok wd → isAbs wd = false →
      env.abs wd = .error e → env.userHomeDir = .ok home →
      LocalDir env root provider d =
        (goJoin [root, gs "local", provider,
          dirnameReplace (trimPre wd (home ++ ['/']))], none)) ∧
    ((LocalDir env root provider d).2.isSome →
      (LocalDir env root provider d).1 = []) := by
  refine ⟨?_, ?_, ?_, ?_⟩
  · intro e he
    simp [LocalDir, he]
  · intro wd e hw hh
    simp [LocalDir, hw, hh]
  · intro wd e home hw habs herr hh
    simp [LocalDir, hw, hh, habs, herr]
  · rcases hg : env.getwd with e | wd
    · simp [LocalDir, hg]
    · rcases hh : env.userHomeDir with e | home
      · simp [LocalDir, hg, hh]
      · simp [LocalDir, hg, hh]

/-- C8 witness: the failure-mode theorem applied to a concrete
environment whose working-directory query fails. -/
theorem c8_witness :
    LocalDir ⟨.error (gs "boom"), fun s => .ok s, .ok (gs "/home/user")⟩
      (gs "/r") (gs "claude") [] =
      ([], some (gs "get current directory: " ++ gs "boom")) :=
  (c8_localDir_failure_modes
    ⟨.error (gs "boom"), fun s => .ok s, .ok (gs "/home/user")⟩
    (gs "/r") (gs "claude") []).1 (gs "boom") rfl

/-! ### Path-algebra lemmas for `Clean` and `goJoin` -/

theorem splitSepCons_ne_nil (c : Char) (r : List GoStr) : splitSepCons c r ≠ [] := by
  cases r with
  | nil => simp [splitSepCons]
  | cons g gl =>
    show ¬(if c = '/' then [] :: g :: gl else (c :: g) :: gl) = []
    split <;> simp

theorem splitSep_ne_nil (l : GoStr) : splitSep l ≠ [] := by
  cases l with
  | nil => simp [splitSep]
  | cons c rest => exact splitSepCons_ne_nil c (splitSep rest)

theorem joinSep_two (x y : GoStr) (yl : List GoStr) :
    joinSep (x :: y :: yl) = x ++ '/' :: joinSep (y :: yl) := rfl

theorem joinSep_eq_flatMap (x : GoStr) (cs : List GoStr) :
    joinSep (x :: cs) = x ++ cs.flatMap (fun c => '/' :: c) := by
  induction cs generalizing x with
  | nil => simp [joinSep]
  | cons y yl ih =>
    rw [joinSep_two, ih y]
    simp

theorem joinSep_splitSep (l : GoStr) : joinSep (splitSep l) = l := by
  induction l with
  | nil => rfl
  | cons c rest ih =>
    show joinSep (splitSepCons c (splitSep rest)) = c :: rest
    cases h : splitSep rest with
    | nil => exact absurd h (splitSep_ne_nil rest)
    | cons g gl =>
      rw [h] at ih
      unfold splitSepCons
      split_ifs with hc
      · subst hc
        simpa [joinSep_two] using ih
      · cases gl with
        | nil =>
          simp only [joinSep] at ih ⊢
          rw [ih]
        | cons g2 gl2 =>
          rw [joinSep_two] at ih ⊢
          simp only [List.cons_append]
          rw [ih]

theorem splitSep_append (x y : GoStr) :
    splitSep (x ++ '/' :: y) = splitSep x ++ splitSep y := by
  induction x with
  | nil =>
    show splitSepCons '/' (splitSep y) = [[]] ++ splitSep y
    cases h : splitSep y with
    | nil => exact absurd h (splitSep_ne_nil y)
    | cons g gl => simp [splitSepCons]
  | cons c x' ih =>
    show splitSepCons c (splitSep (x' ++ '/' :: y)) =
      splitSepCons c (splitSep x') ++ splitSep y
    rw [ih]
    cases h : splitSep x' with
    | nil => exact absurd h (splitSep_ne_nil x')
    | cons g gl =>
      show (if c = '/' then [] :: g :: (gl ++ splitSep y)
          else (c :: g) :: (gl ++ splitSep y)) =
        (if c = '/' then [] :: g :: gl else (c :: g) :: gl) ++ splitSep y
      split_ifs <;> simp

theorem splitSep_no_sep (l : GoStr) : ∀ c ∈ splitSep l, '/' ∉ c := by
  induction l with
  | nil =>
    intro c hc
    simp [splitSep] at hc
    simp [hc]
  | cons a rest ih =>
    intro c hc
    have hc' : c ∈ splitSepCons a (splitSep rest) := hc
    cases h : splitSep rest with
    | nil => exact absurd h (splitSep_ne_nil rest)
    | cons g gl =>
      rw [h] at hc'
      have hmem : ∀ d ∈ g :: gl, '/' ∉ d := fun d hd => ih d (h ▸ hd)
      unfold splitSepCons at hc'
      split_ifs at hc' with ha
      · rcases List.mem_cons.mp hc' with rfl | hcc
        · simp
        · exact hmem c hcc
      · rcases List.mem_cons.mp hc' with rfl | hcc
        · intro hin
          rcases List.mem_cons.mp hin with heq | hin'
          · exact ha heq.symm
          · exact hmem g (List.mem_cons_self g gl) hin'
        · exact hmem c (List.mem_cons_of_mem g hcc)

theorem splitSep_of_no_sep (x : GoStr) (hx : '/' ∉ x) : splitSep x = [x] := by
  induction x with
  | nil => rfl
  | cons c x' ih =>
    have hc : c ≠ '/' := fun h => hx (by rw [h]; exact List.mem_cons_self _ _)
    have hx' : '/' ∉ x' := fun h => hx (List.mem_cons_of_mem c h)
    show splitSepCons c (splitSep x') = [c :: x']
    rw [ih hx']
    show (if c = '/' then [[], x'] else [c :: x']) = [c :: x']
    rw [if_neg hc]

theorem splitSep_joinSep (cs : List GoStr) (hne : cs ≠ [])
    (hs : ∀ c ∈ cs, '/' ∉ c) : splitSep (joinSep cs) = cs := by
  induction cs with
  | nil => exact absurd rfl hne
  | cons x cs' ih =>
    cases cs' with
    | nil => exact splitSep_of_no_sep x (hs x (List.mem_cons_self x []))
    | cons y yl =>
      rw [joinSep_two, splitSep_append,
        splitSep_of_no_sep x (hs x (List.mem_cons_self x (y :: yl))),
        ih (by simp) (fun c hc => hs c (List.mem_cons_of_mem x hc))]
      rfl

theorem foldl_stepComp_no_dotdot (rooted : Bool) (cs : List GoStr)
    (h : ∀ c ∈ cs, c ≠ ['.', '.']) :
    ∀ acc, cs.foldl (stepComp rooted) acc = cs.reverse ++ acc := by
  induction cs with
  | nil => intro acc; simp
  | cons c cs' ih =>
    intro acc
    rw [List.foldl_cons]
    have hc : stepComp rooted acc c = c :: acc := by
      unfold stepComp
      rw [if_neg (h c (List.mem_cons_self c cs'))]
    rw [hc, ih (fun d hd => h d (List.mem_cons_of_mem c hd)) (c :: acc)]
    simp

theorem cleanStack_no_dotdot (rooted : Bool) (cs : List GoStr)
    (h : ∀ c ∈ cs, c ≠ ['.', '.']) : cleanStack rooted cs = cs := by
  unfold cleanStack
  rw [foldl_stepComp_no_dotdot rooted cs h []]
  simp

theorem startsWith_self_cons (c : Char) (s : GoStr) :
    startsWith (c :: s) [c] = true := by
  simp [startsWith]

theorem splitSep_cons_sep (x : GoStr) : splitSep ('/' :: x) = [] :: splitSep x := by
  show splitSepCons '/' (splitSep x) = [] :: splitSep x
  cases h : splitSep x with
  | nil => exact absurd h (splitSep_ne_nil x)
  | cons g gl => simp [splitSepCons]

theorem filter_simple (cs : List GoStr) (hs : ∀ c ∈ cs, simpleComp c) :
    cs.filter (fun c => decide (c ≠ []) && decide (c ≠ ['.'])) = cs := by
  apply List.filter_eq_self.mpr
  intro c hc
  obtain ⟨h1, h2, _, _⟩ := hs c hc
  simp [h1, h2]

theorem clean_rooted_simple (comps : List GoStr) (hne : comps ≠ [])
    (hs : ∀ c ∈ comps, simpleComp c) :
    Clean ('/' :: joinSep comps) = '/' :: joinSep comps := by
  have hnosep : ∀ c ∈ comps, '/' ∉ c := fun c hc => (hs c hc).2.2.2
  have hnodd : ∀ c ∈ comps, c ≠ ['.', '.'] := fun c hc => (hs c hc).2.2.1
  unfold Clean
  rw [startsWith_self_cons, splitSep_cons_sep, splitSep_joinSep comps hne hnosep]
  simp only [List.filter_cons]
  rw [show (decide (([] : GoStr) ≠ []) && decide (([] : GoStr) ≠ ['.'])) = false by decide]
  simp only [Bool.false_eq_true, if_false]
  rw [filter_simple comps hs, cleanStack_no_dotdot true comps hnodd, if_neg hne]
  simp

theorem cleanAbs_parts (r : GoStr) (hr : cleanAbs r) :
    ∃ rest, r = '/' :: rest ∧ ∀ c ∈ splitSep rest, simpleComp c := by
  obtain ⟨hh, hcs⟩ := hr
  cases r with
  | nil => simp at hh
  | cons c rest =>
    simp only [List.head?_cons, Option.some_inj] at hh
    exact ⟨rest, by rw [hh], hcs⟩

theorem clean_cleanAbs (r : GoStr) (hr : cleanAbs r) : Clean r = r := by
  obtain ⟨rest, rfl, hcs⟩ := cleanAbs_parts r hr
  have := clean_rooted_simple (splitSep rest) (splitSep_ne_nil rest) hcs
  rwa [joinSep_splitSep] at this

theorem cleanAbs_extend (r a : GoStr) (hr : cleanAbs r) (ha : simpleComp a) :
    cleanAbs (r ++ '/' :: a) := by
  obtain ⟨rest, rfl, hcs⟩ := cleanAbs_parts r hr
  refine ⟨by simp, ?_⟩
  intro c hc
  simp only [List.cons_append, List.tail_cons] at hc
  rw [splitSep_append, splitSep_of_no_sep a ha.2.2.2] at hc
  rcases List.mem_append.mp hc with hc' | hc'
  · exact hcs c hc'
  · rw [List.mem_singleton] at hc'
    exact hc' ▸ ha

theorem cleanAbs_flat (cs : List GoStr) :
    ∀ r, cleanAbs r → (∀ c ∈ cs, simpleComp c) →
      cleanAbs (r ++ cs.flatMap fun c => '/' :: c) := by
  induction cs with
  | nil => intro r hr _; simpa using hr
  | cons c cs' ih =>
    intro r hr hcs
    rw [List.flatMap_cons, ← List.append_assoc]
    exact ih (r ++ '/' :: c)
      (cleanAbs_extend r c hr (hcs c (List.mem_cons_self c cs')))
      (fun d hd => hcs d (List.mem_cons_of_mem c hd))

theorem cleanAbs_ne_nil (r : GoStr) (hr : cleanAbs r) : r ≠ [] := by
  obtain ⟨rest, rfl, -⟩ := cleanAbs_parts r hr
  simp

theorem goJoin_abs (r : GoStr) (cs : List GoStr) (hr : cleanAbs r)
    (hcs : ∀ c ∈ cs, simpleComp c) :
    goJoin (r :: cs) = r ++ cs.flatMap (fun c => '/' :: c) := by
  unfold goJoin
  rw [if_neg (cleanAbs_ne_nil r hr), joinSep_eq_flatMap]
  exact clean_cleanAbs _ (cleanAbs_flat cs r hr hcs)

/-- C7: the resolved context root is the override variable when it is
non-empty and `home ++ "/.llmctxenv"` otherwise, and `GlobalDir` appends
`/global/` and the provider to the resolved root (stated for a clean
absolute home directory and override value, and a plain provider name). -/
theorem c7_root_resolution_and_globalDir (envRoot home provider : GoStr)
    (hhome : cleanAbs home) (hprov : simpleComp provider)
    (henv : envRoot = [] ∨ cleanAbs envRoot) :
    (envRoot ≠ [] → llmCtxEnvRoot envRoot home = envRoot) ∧
    (envRoot = [] → llmCtxEnvRoot envRoot home = home ++ gs "/.llmctxenv") ∧
    GlobalDir (llmCtxEnvRoot envRoot home) provider =
      llmCtxEnvRoot envRoot home ++ gs "/global/" ++ provider := by
  have hlc : simpleComp (gs ".llmctxenv") := by decide
  have hroot2 : envRoot = [] →
      llmCtxEnvRoot envRoot home = home ++ gs "/.llmctxenv" := by
    intro h
    subst h
    unfold llmCtxEnvRoot cmpOr
    rw [if_pos rfl, goJoin_abs home [gs ".llmctxenv"] hhome
      (by intro c hc; rw [List.mem_singleton] at hc; exact hc ▸ hlc)]
    rfl
  have hcleanRoot : cleanAbs (llmCtxEnvRoot envRoot home) := by
    rcases henv with h | h
    · rw [hroot2 h]
      exact cleanAbs_extend home (gs ".llmctxenv") hhome hlc
    · unfold llmCtxEnvRoot cmpOr
      rw [if_neg (cleanAbs_ne_nil envRoot h)]
      exact h
  refine ⟨?_, hroot2, ?_⟩
  · intro h
    unfold llmCtxEnvRoot cmpOr
    rw [if_neg h]
  · rw [GlobalDir, goJoin_abs _ [gs "global", provider] hcleanRoot ?_]
    · simp only [List.flatMap_cons, List.flatMap_nil, List.append_nil,
        List.append_assoc]
      rfl
    · intro c hc
      rcases List.mem_cons.mp hc with rfl | hc'
      · decide
      · rw [List.mem_singleton] at hc'
        exact hc' ▸ hprov

/-- C7 witness: the root-resolution theorem applied to a concrete
override root, home directory and provider. -/
theorem c7_witness :
    (gs "/tmp/custom-llmctx" ≠ [] →
      llmCtxEnvRoot (gs "/tmp/custom-llmctx") (gs "/home/user") =
        gs "/tmp/custom-llmctx") ∧
    (gs "/tmp/custom-llmctx" = [] →
      llmCtxEnvRoot (gs "/tmp/custom-llmctx") (gs "/home/user") =
        gs "/home/user" ++ gs "/.llmctxenv") ∧
    GlobalDir (llmCtxEnvRoot (gs "/tmp/custom-llmctx") (gs "/home/user"))
        (gs "claude") =
      llmCtxEnvRoot (gs "/tmp/custom-llmctx") (gs "/home/user") ++
        gs "/global/" ++ gs "claude" :=
  c7_root_resolution_and_globalDir (gs "/tmp/custom-llmctx")
    (gs "/home/user") (gs "claude") (by decide) (by decide)
    (Or.inr (by decide))

/-- C10: the result of `LocalDir` does not depend on its `projectDir`
argument: for a fixed environment, root and provider, any two argument
strings give the same path and the same error. -/
theorem c10_localDir_ignores_projectDir (env : GoEnv)
    (root provider d1 d2 : GoStr) :
    LocalDir env root provider d1 = LocalDir env root provider d2 := rfl

/-! ### File-system basics -/

theorem lookup_insert_self (fs : FS) (p : Path) (e : Entry) :
    lookup (fsInsert fs p e) p = some e := by
  unfold lookup fsInsert
  rw [List.find?_cons_of_pos _ (by simp)]
  rfl

theorem lookup_insert_ne (fs : FS) (p q : Path) (e : Entry) (h : q ≠ p) :
    lookup (fsInsert fs p e) q = lookup fs q := by
  unfold lookup fsInsert
  rw [List.find?_cons_of_neg _ (by simpa using Ne.symm h)]

theorem lookup_isSome_iff (fs : FS) (p : Path) :
    (lookup fs p).isSome ↔ ∃ pe ∈ fs, pe.1 = p := by
  unfold lookup
  cases hf : fs.find? fun pe => decide (pe.1 = p) with
  | none =>
    simp only [Option.map_none', Option.isSome_none, Bool.false_eq_true,
      false_iff]
    intro ⟨pe, hpe, hp⟩
    have := List.find?_eq_none.mp hf pe hpe
    simp [hp] at this
  | some pe =>
    simp only [Option.map_some', Option.isSome_some, true_iff]
    exact ⟨pe, List.mem_of_find?_eq_some hf, by simpa using List.find?_some hf⟩

theorem lookup_none_iff (fs : FS) (p : Path) :
    lookup fs p = none ↔ ∀ pe ∈ fs, pe.1 ≠ p := by
  rw [← Option.not_isSome_iff_eq_none, lookup_isSome_iff]
  simp only [not_exists, not_and]

/-! ### Prefix helpers -/

theorem concat_not_pre (l : Path) (n : Name) : ¬ l ++ [n] <+: l := by
  intro h
  have := h.length_le
  simp at this

theorem pre_concat_cases (q p : Path) (n : Name) (h : q <+: p ++ [n]) :
    q = p ++ [n] ∨ q <+: p := by
  rcases List.prefix_or_prefix_of_prefix h (List.prefix_append p [n]) with h1 | h1
  · exact Or.inr h1
  · by_cases hl : q.length ≤ p.length
    · cases List.IsPrefix.eq_of_length_le h1 hl
      exact Or.inr (List.prefix_refl _)
    · left
      have h2 : q.length ≤ p.length + 1 := by simpa using h.length_le
      exact List.IsPrefix.eq_of_length h (by simp; omega)

theorem not_concat_pre_concat (src dest : Path) (n : Name)
    (hne : ¬ src <+: dest) : ¬ src ++ [n] <+: dest ++ [n] := by
  intro h
  rcases pre_concat_cases _ _ _ h with h1 | h1
  · exact hne (List.append_cancel_right h1 ▸ List.prefix_refl _)
  · exact hne ((List.prefix_append src [n]).trans h1)

theorem concat_pre_head (dest : Path) (a b : Name) (r : Path)
    (h : dest ++ [a] <+: dest ++ b :: r) : a = b := by
  rw [List.prefix_append_right_inj] at h
  obtain ⟨t, ht⟩ := h
  simpa using congrArg List.head? ht

/-! ### `mkdirAll` lemmas -/

theorem mkdirAll_of_dir (fs : FS) (p : Path) (perm d : Nat)
    (h : lookup fs p = some (.dir d)) : mkdirAll fs p perm = .ok fs := by
  unfold mkdirAll
  cases hp : p.reverse with
  | nil => rfl
  | cons n rev' =>
    have hpp : (n :: rev').reverse = p := by rw [← hp, List.reverse_reverse]
    show (match lookup fs ((n :: rev').reverse) with
      | some (.dir _) => Except.ok fs
      | some (.file _ _) => Except.error Err.notDir
      | none =>
        match mkdirAllRev fs perm rev' with
        | .error e => .error e
        | .ok fs1 => .ok (fsInsert fs1 ((n :: rev').reverse) (.dir perm))) =
      Except.ok fs
    rw [hpp, h]

/-! ### Claim C2 -/

/-- C2 counterexample: with a file already at the destination but a
missing source, `CopyFile` fails with `NotFound` (the source is opened
first), not with `AlreadyExists` as the claim demands for every source. -/
theorem c2_counterexample :
    CopyFile [([gs "d"], Entry.file [1] 420)] [gs "d"] [gs "s"] 420 =
      ([([gs "d"], Entry.file [1] 420)], some Err.notFound) ∧
    Err.notFound ≠ Err.alreadyExists := by
  constructor
  · decide
  · decide

/-- C2 amended: whenever a file already exists at the destination,
`CopyFile` fails and leaves the file system (in particular the
destination's content) untouched; the error is `AlreadyExists` whenever
the source can be opened, and `NotFound` (from opening the source) when
the source is absent.  Directories are the exception to exclusive
creation: `MkdirAll` on an existing directory succeeds idempotently. -/
theorem c2_copyFile_never_clobbers (fs : FS) (dest source : Path)
    (perm : Nat) (c : List Nat) (pm : Nat)
    (hdest : lookup fs dest = some (.file c pm)) :
    (∃ e, CopyFile fs dest source perm = (fs, some e)) ∧
    (∀ se, lookup fs source = some se →
      CopyFile fs dest source perm = (fs, some .alreadyExists)) ∧
    lookup (CopyFile fs dest source perm).1 dest = some (.file c pm) ∧
    (∀ p dperm d2, lookup fs p = some (.dir d2) →
      mkdirAll fs p dperm = .ok fs) := by
  have hopen : openExcl fs dest = some .alreadyExists := by
    unfold openExcl
    rw [if_pos (by rw [hdest]; rfl)]
  have hmain : ∀ se, lookup fs source = some se →
      CopyFile fs dest source perm = (fs, some .alreadyExists) := by
    intro se hse
    unfold CopyFile
    rw [hse, hopen]
  refine ⟨?_, hmain, ?_, ?_⟩
  · cases hse : lookup fs source with
    | none =>
      refine ⟨.notFound, ?_⟩
      unfold CopyFile
      rw [hse]
    | some se => exact ⟨.alreadyExists, hmain se hse⟩
  · cases hse : lookup fs source with
    | none =>
      have : CopyFile fs dest source perm = (fs, some .notFound) := by
        unfold CopyFile
        rw [hse]
      rw [this]
      exact hdest
    | some se =>
      rw [hmain se hse]
      exact hdest
  · intro p dperm d2 hp
    exact mkdirAll_of_dir fs p dperm d2 hp

/-- C2 witness: the amended theorem applied to a concrete file system
with an existing destination file and an existing source file. -/
theorem c2_witness :
    CopyFile [([gs "d"], Entry.file [5] 420), ([gs "s"], Entry.file [7] 444)]
      [gs "d"] [gs "s"] 420 =
      ([([gs "d"], Entry.file [5] 420), ([gs "s"], Entry.file [7] 444)],
        some Err.alreadyExists) :=
  (c2_copyFile_never_clobbers
    [([gs "d"], Entry.file [5] 420), ([gs "s"], Entry.file [7] 444)]
    [gs "d"] [gs "s"] 420 [5] 420 (by decide)).2.1
    (Entry.file [7] 444) (by decide)

/-! ### Well-formedness lemmas -/

theorem WF_prefix_dirs (fs : FS) (hwf : WF fs) :
    ∀ p, (lookup fs p).isSome → ∀ q, q <+: p → q ≠ p → q ≠ [] →
      ∃ d, lookup fs q = some (.dir d) := by
  intro p
  induction p using List.reverseRecOn with
  | nil =>
    intro _ q hq _ hq0
    exact absurd (List.prefix_nil.mp hq) hq0
  | append_singleton p n ih =>
    intro hp q hq hqp hq0
    rcases pre_concat_cases q p n hq with heq | hq1
    · exact absurd heq hqp
    · rcases hwf p n hp with rfl | ⟨d, hd⟩
      · exact absurd (List.prefix_nil.mp hq1) hq0
      · by_cases hqeq : q = p
        · exact ⟨d, hqeq ▸ hd⟩
        · exact ih (by rw [hd]; rfl) q hq1 hqeq hq0

theorem WF_ancestor_dir (fs : FS) (hwf : WF fs) (q r : Path)
    (hr : r ≠ []) (hq : q ≠ []) (h : (lookup fs (q ++ r)).isSome) :
    ∃ d, lookup fs q = some (.dir d) := by
  refine WF_prefix_dirs fs hwf (q ++ r) h q (List.prefix_append q r) ?_ hq
  intro heq
  simp only [List.self_eq_append_right] at heq
  exact hr heq

theorem WF_under_file (fs : FS) (hwf : WF fs) (p : Path) (hp : p ≠ [])
    (c : List Nat) (pm : Nat) (hf : lookup fs p = some (.file c pm)) :
    ∀ r : Path, r ≠ [] → lookup fs (p ++ r) = none := by
  intro r hr
  by_contra h
  obtain ⟨d, hd⟩ := WF_ancestor_dir fs hwf p r hr hp
    (Option.ne_none_iff_isSome.mp h)
  rw [hf] at hd
  simp at hd

theorem WF_insert (fs : FS) (p : Path) (e : Entry) (hwf : WF fs)
    (hnone : lookup fs p = none)
    (hpar : p.dropLast = [] ∨ ∃ d, lookup fs p.dropLast = some (.dir d)) :
    WF (fsInsert fs p e) := by
  intro q n hq
  by_cases hqp : q ++ [n] = p
  · have hqd : q = p.dropLast := by rw [← hqp, List.dropLast_concat]
    rcases hpar with h0 | ⟨d, hd⟩
    · exact Or.inl (hqd.trans h0)
    · right
      have hqnep : q ≠ p := by
        intro h
        rw [← h] at hqp
        have := congrArg List.length hqp
        simp at this
      exact ⟨d, by rw [lookup_insert_ne _ _ _ _ hqnep, hqd]; exact hd⟩
  · rw [lookup_insert_ne _ _ _ _ hqp] at hq
    rcases hwf q n hq with h0 | ⟨d, hd⟩
    · exact Or.inl h0
    · right
      have hqnep : q ≠ p := by
        intro h
        rw [h, hnone] at hd
        cases hd
      exact ⟨d, by rw [lookup_insert_ne _ _ _ _ hqnep]; exact hd⟩

theorem append_not_pre (dest x : Path) (hx : x ≠ []) : ¬ dest ++ x <+: dest := by
  intro h
  have := h.length_le
  simp only [List.length_append] at this
  exact hx (List.length_eq_zero.mp (by omega))

theorem append_ne_of_ne (dest x y : Path) (h : x ≠ y) : dest ++ x ≠ dest ++ y :=
  fun hc => h (List.append_cancel_left hc)

theorem src_not_pre_cone (src dest : Path) (n : Name) (hpre : ¬ src <+: dest)
    (hdp : ¬ dest <+: src) (y : Path) : ¬ src ++ y <+: dest ++ [n] := by
  intro h
  have h1 : src <+: dest ++ [n] := (List.prefix_append src y).trans h
  rcases pre_concat_cases src dest n h1 with heq | h2
  · exact hdp (heq ▸ List.prefix_append dest [n])
  · exact hpre h2

theorem cone_not_pre_src (src dest : Path) (n : Name) (hpre : ¬ src <+: dest)
    (hdp : ¬ dest <+: src) (y : Path) : ¬ dest ++ [n] <+: src ++ y := by
  intro h
  rcases List.prefix_or_prefix_of_prefix h (List.prefix_append src y) with h1 | h1
  · exact hdp ((List.prefix_append dest [n]).trans h1)
  · rcases pre_concat_cases src dest n h1 with heq | h2
    · exact hdp (heq ▸ List.prefix_append dest [n])
    · exact hpre h2

theorem cons_append_eq (dest : Path) (n : Name) (r : Path) :
    dest ++ n :: r = (dest ++ [n]) ++ r := by simp

/-! ### `mkdirAll` specification -/

theorem mkdirAllRev_spec (perm : Nat) :
    ∀ revp : List Name, ∀ fs fs1 : FS, mkdirAllRev fs perm revp = .ok fs1 →
      (∀ q, ¬ q <+: revp.reverse → lookup fs1 q = lookup fs q) ∧
      (∀ q, q <+: revp.reverse → lookup fs1 q = lookup fs q ∨
        (q ≠ [] ∧ lookup fs q = none ∧ lookup fs1 q = some (.dir perm))) ∧
      (revp ≠ [] → ∃ d, lookup fs1 revp.reverse = some (.dir d)) := by
  intro revp
  induction revp with
  | nil =>
    intro fs fs1 h
    simp only [mkdirAllRev, Except.ok.injEq] at h
    subst h
    exact ⟨fun _ _ => rfl, fun q _ => Or.inl rfl, fun hne => absurd rfl hne⟩
  | cons n rev' ih =>
    intro fs fs1 h
    have hrev : (n :: rev').reverse = rev'.reverse ++ [n] := by simp
    simp only [mkdirAllRev] at h
    cases hl : lookup fs ((n :: rev').reverse) with
    | some e =>
      cases e with
      | dir d =>
        rw [hl] at h
        simp only [Except.ok.injEq] at h
        subst h
        exact ⟨fun _ _ => rfl, fun q _ => Or.inl rfl, fun _ => ⟨d, hl⟩⟩
      | file c pm =>
        rw [hl] at h
        cases h
    | none =>
      rw [hl] at h
      cases hrec : mkdirAllRev fs perm rev' with
      | error e => rw [hrec] at h; cases h
      | ok fsp =>
        rw [hrec] at h
        simp only [Except.ok.injEq] at h
        subst h
        obtain ⟨m1p, m2p, m3p⟩ := ih fs fsp hrec
        have hpne : (n :: rev').reverse ≠ [] := by simp
        refine ⟨?_, ?_, ?_⟩
        · intro q hq
          have hqnep : q ≠ (n :: rev').reverse :=
            fun hc => hq (hc ▸ List.prefix_refl q)
          rw [lookup_insert_ne _ _ _ _ hqnep]
          refine m1p q fun hc => hq ?_
          rw [hrev]
          exact hc.trans (List.prefix_append _ _)
        · intro q hq
          by_cases hqp : q = (n :: rev').reverse
          · subst hqp
            exact Or.inr ⟨hpne, hl, lookup_insert_self _ _ _⟩
          · rw [lookup_insert_ne _ _ _ _ hqp]
            rw [hrev] at hq
            rcases pre_concat_cases q rev'.reverse n hq with heq | hq1
            · exact absurd (hrev ▸ heq) hqp
            · exact m2p q hq1
        · intro _
          exact ⟨perm, lookup_insert_self _ _ _⟩

theorem mkdirAll_ok_spec (fs : FS) (p : Path) (perm : Nat) (fs1 : FS)
    (h : mkdirAll fs p perm = .ok fs1) :
    (∀ q, ¬ q <+: p → lookup fs1 q = lookup fs q) ∧
    (∀ q, q <+: p → lookup fs1 q = lookup fs q ∨
      (q ≠ [] ∧ lookup fs q = none ∧ lookup fs1 q = some (.dir perm))) ∧
    (p ≠ [] → ∃ d, lookup fs1 p = some (.dir d)) := by
  have := mkdirAllRev_spec perm p.reverse fs fs1 h
  simpa only [List.reverse_reverse, ne_eq, List.reverse_eq_nil_iff] using this

theorem mkdirAllRev_WF (perm : Nat) :
    ∀ revp : List Name, ∀ fs fs1 : FS, WF fs →
      mkdirAllRev fs perm revp = .ok fs1 → WF fs1 := by
  intro revp
  induction revp with
  | nil =>
    intro fs fs1 hwf h
    simp only [mkdirAllRev, Except.ok.injEq] at h
    subst h
    exact hwf
  | cons n rev' ih =>
    intro fs fs1 hwf h
    have hrev : (n :: rev').reverse = rev'.reverse ++ [n] := by simp
    simp only [mkdirAllRev] at h
    cases hl : lookup fs ((n :: rev').reverse) with
    | some e =>
      cases e with
      | dir d =>
        rw [hl] at h
        simp only [Except.ok.injEq] at h
        subst h
        exact hwf
      | file c pm => rw [hl] at h; cases h
    | none =>
      rw [hl] at h
      cases hrec : mkdirAllRev fs perm rev' with
      | error e => rw [hrec] at h; cases h
      | ok fsp =>
        rw [hrec] at h
        simp only [Except.ok.injEq] at h
        subst h
        obtain ⟨m1p, m2p, m3p⟩ := mkdirAllRev_spec perm rev' fs fsp hrec
        have hwfp : WF fsp := ih fs fsp hwf hrec
        apply WF_insert fsp _ _ hwfp
        · rw [m1p _ (hrev ▸ concat_not_pre rev'.reverse n)]
          exact hl
        · rw [hrev, List.dropLast_concat]
          cases hre : rev' with
          | nil => left; simp
          | cons m ms => right; exact hre ▸ m3p (by rw [hre]; simp)

theorem mkdirAll_WF (fs fs1 : FS) (p : Path) (perm : Nat) (hwf : WF fs)
    (h : mkdirAll fs p perm = .ok fs1) : WF fs1 :=
  mkdirAllRev_WF perm p.reverse fs fs1 hwf h

/-! ### `CopyFile` and `readDir` lemmas -/

theorem openExcl_none (fs : FS) (p : Path) (h : openExcl fs p = none) :
    lookup fs p = none ∧
    (p.dropLast = [] ∨ ∃ d, lookup fs p.dropLast = some (.dir d)) := by
  unfold openExcl at h
  by_cases h1 : (lookup fs p).isSome
  · rw [if_pos h1] at h; cases h
  · refine ⟨Option.not_isSome_iff_eq_none.mp h1, ?_⟩
    rw [if_neg h1] at h
    by_cases h2 : p.dropLast = []
    · exact Or.inl h2
    · rw [if_neg h2] at h
      cases hl : lookup fs p.dropLast with
      | none => rw [hl] at h; cases h
      | some e =>
        cases e with
        | dir d => exact Or.inr ⟨d, rfl⟩
        | file c pm => rw [hl] at h; cases h

theorem CopyFile_WF (fs : FS) (dest source : Path) (perm : Nat)
    (hwf : WF fs) : WF (CopyFile fs dest source perm).1 := by
  unfold CopyFile
  cases hs : lookup fs source with
  | none => exact hwf
  | some se =>
    cases ho : openExcl fs dest with
    | some e => exact hwf
    | none =>
      obtain ⟨hnone, hpar⟩ := openExcl_none fs dest ho
      cases se with
      | file c pm => exact WF_insert fs dest _ hwf hnone hpar
      | dir d => exact WF_insert fs dest _ hwf hnone hpar

theorem readDir_ok (fs : FS) (dir : Path) (names : List Name)
    (h : readDir fs dir = .ok names) :
    (∃ d, lookup fs dir = some (.dir d)) ∧ names = childNames fs dir := by
  unfold readDir at h
  cases hl : lookup fs dir with
  | none => rw [hl] at h; cases h
  | some e =>
    cases e with
    | dir d =>
      rw [hl] at h
      simp only [Except.ok.injEq] at h
      exact ⟨⟨d, rfl⟩, h.symm⟩
    | file c pm => rw [hl] at h; cases h

/-! ### `childNames` lemmas -/

theorem insSorted_mem (x n : Name) (l : List Name) :
    x ∈ insSorted n l ↔ x = n ∨ x ∈ l := by
  induction l with
  | nil => simp [insSorted]
  | cons m ms ih =>
    unfold insSorted
    split_ifs with hle
    · simp
    · simp only [List.mem_cons, ih]
      tauto

theorem sortNames_mem (x : Name) (l : List Name) :
    x ∈ sortNames l ↔ x ∈ l := by
  induction l with
  | nil => simp [sortNames]
  | cons m ms ih =>
    show x ∈ insSorted m (sortNames ms) ↔ _
    rw [insSorted_mem, ih]
    simp

theorem insSorted_nodup (n : Name) (l : List Name) (hn : n ∉ l)
    (h : l.Nodup) : (insSorted n l).Nodup := by
  induction l with
  | nil => simp [insSorted]
  | cons m ms ih =>
    unfold insSorted
    rw [List.nodup_cons] at h
    split_ifs with hle
    · rw [List.nodup_cons, List.nodup_cons]
      exact ⟨hn, h⟩
    · rw [List.nodup_cons, insSorted_mem]
      refine ⟨?_, ih (fun hc => hn (List.mem_cons_of_mem m hc)) h.2⟩
      rintro (rfl | hc)
      · exact hn (List.mem_cons_self m ms)
      · exact h.1 hc

theorem sortNames_nodup (l : List Name) (h : l.Nodup) :
    (sortNames l).Nodup := by
  induction l with
  | nil => simp [sortNames]
  | cons m ms ih =>
    rw [List.nodup_cons] at h
    exact insSorted_nodup m (sortNames ms)
      (fun hc => h.1 ((sortNames_mem m ms).mp hc)) (ih h.2)

theorem childNames_nodup (fs : FS) (dir : Path) : (childNames fs dir).Nodup :=
  sortNames_nodup _ (List.nodup_dedup _)

theorem getLast?_decomp (l : Path) (n : Name) (h : l.getLast? = some n) :
    l = l.dropLast ++ [n] := by
  cases hr : l.reverse with
  | nil =>
    rw [List.reverse_eq_nil_iff] at hr
    subst hr
    cases h
  | cons m rev' =>
    have hl : l = rev'.reverse ++ [m] := by
      rw [← List.reverse_reverse l, hr]
      simp
    rw [hl, List.getLast?_concat] at h
    rw [hl, List.dropLast_concat]
    simp only [Option.some_inj] at h
    rw [h]

theorem childNames_mem (fs : FS) (dir : Path) (n : Name) :
    n ∈ childNames fs dir ↔ (lookup fs (dir ++ [n])).isSome := by
  unfold childNames
  rw [sortNames_mem, List.mem_dedup, List.mem_filterMap]
  constructor
  · rintro ⟨pe, hpe, hcn⟩
    unfold childName at hcn
    split_ifs at hcn with hd
    · have hp1 : pe.1 = dir ++ [n] := by
        rw [← hd]
        exact getLast?_decomp pe.1 n hcn
      rw [lookup_isSome_iff]
      exact ⟨pe, hpe, hp1⟩
  · intro h
    rw [lookup_isSome_iff] at h
    obtain ⟨pe, hpe, hp1⟩ := h
    refine ⟨pe, hpe, ?_⟩
    unfold childName
    rw [hp1, List.dropLast_concat, if_pos rfl, List.getLast?_concat]

/-! ### WF preservation through `CopyDir` -/

theorem copyEntriesGo_WF
    (recur : FS → Path → Path → Option (FS × Option Err))
    (hrec : ∀ fs src dest out, WF fs → recur fs src dest = some out →
      WF out.1)
    (src dest : Path) :
    ∀ names : List Name, ∀ fs : FS, ∀ out : FS × Option Err, WF fs →
      copyEntriesGo recur src dest fs names = some out → WF out.1 := by
  intro names
  induction names with
  | nil =>
    intro fs out hwf h
    simp only [copyEntriesGo, Option.some_inj] at h
    rw [← h]
    exact hwf
  | cons n rest ih =>
    intro fs out hwf h
    simp only [copyEntriesGo] at h
    cases hstat : lookup fs (src ++ [n]) with
    | none =>
      simp only [hstat, Option.some_inj] at h
      rw [← h]
      exact hwf
    | some e =>
      cases e with
      | dir dp =>
        simp only [hstat] at h
        cases hmk : mkdirAll fs (dest ++ [n]) 493 with
        | error e2 =>
          simp only [hmk, Option.some_inj] at h
          rw [← h]
          exact hwf
        | ok fs2 =>
          simp only [hmk] at h
          have hwf2 : WF fs2 := mkdirAll_WF fs fs2 _ _ hwf hmk
          cases hrc : recur fs2 (src ++ [n]) (dest ++ [n]) with
          | none =>
            simp only [hrc] at h
            exact Option.noConfusion h
          | some out2 =>
            obtain ⟨fs3, oe⟩ := out2
            simp only [hrc] at h
            have hwf3 : WF fs3 := hrec fs2 _ _ _ hwf2 hrc
            cases oe with
            | some e2 =>
              simp only [Option.some_inj] at h
              rw [← h]
              exact hwf3
            | none => exact ih fs3 out hwf3 h
      | file c pm =>
        simp only [hstat] at h
        cases hmk : mkdirAll fs (dest ++ [n]).dropLast 493 with
        | error e2 =>
          simp only [hmk, Option.some_inj] at h
          rw [← h]
          exact hwf
        | ok fs2 =>
          simp only [hmk] at h
          have hwf2 : WF fs2 := mkdirAll_WF fs fs2 _ _ hwf hmk
          have hwf3 : WF (CopyFile fs2 (dest ++ [n]) (src ++ [n]) pm).1 :=
            CopyFile_WF fs2 _ _ _ hwf2
          cases hcf : CopyFile fs2 (dest ++ [n]) (src ++ [n]) pm with
          | mk fs3 oe =>
            rw [hcf] at hwf3
            simp only [hcf] at h
            cases oe with
            | some e2 =>
              simp only [Option.some_inj] at h
              rw [← h]
              exact hwf3
            | none => exact ih fs3 out hwf3 h

theorem CopyDir_WF :
    ∀ fuel : Nat, ∀ fs : FS, ∀ src dest : Path, ∀ out : FS × Option Err,
      WF fs → CopyDir fuel fs src dest = some out → WF out.1 := by
  intro fuel
  induction fuel with
  | zero => intro fs src dest out hwf h; cases h
  | succ fuel ih =>
    intro fs src dest out hwf h
    simp only [CopyDir] at h
    cases hmk : mkdirAll fs dest 493 with
    | error e =>
      simp only [hmk, Option.some_inj] at h
      rw [← h]
      exact hwf
    | ok fs1 =>
      simp only [hmk] at h
      have hwf1 : WF fs1 := mkdirAll_WF fs fs1 _ _ hwf hmk
      cases hrd : readDir fs1 src with
      | error e =>
        simp only [hrd, Option.some_inj] at h
        rw [← h]
        exact hwf1
      | ok names =>
        simp only [hrd] at h
        exact copyEntriesGo_WF (CopyDir fuel)
          (fun fs' s d o hw hh => ih fs' s d o hw hh)
          src dest names fs1 out hwf1 h

/-! ### The tree-copy specification -/

theorem copyEntries_ok_spec
    (recur : FS → Path → Path → Option (FS × Option Err))
    (HIH : ∀ fs src dest fs2,
      WF fs →
      (∀ r : Path, r ≠ [] → lookup fs (dest ++ r) = none) →
      (lookup fs dest = none ∨ ∃ d0, lookup fs dest = some (.dir d0)) →
      ¬ src <+: dest →
      recur fs src dest = some (fs2, none) →
      (∀ r : Path, r ≠ [] →
        lookup fs2 (dest ++ r) = (lookup fs (src ++ r)).map copyEntry) ∧
      (∀ q, ¬ dest <+: q → ¬ q <+: dest → lookup fs2 q = lookup fs q) ∧
      (∀ q, q <+: dest → lookup fs2 q = lookup fs q ∨
        (q ≠ [] ∧ lookup fs q = none ∧ lookup fs2 q = some (.dir 493))) ∧
      ¬ dest <+: src)
    (Hwfrec : ∀ fs src dest out, WF fs → recur fs src dest = some out →
      WF out.1)
    (src dest : Path) (hpre : ¬ src <+: dest) (hdp : ¬ dest <+: src) :
    ∀ names : List Name, ∀ fs fs2 : FS,
      WF fs →
      names.Nodup →
      (∃ d0, lookup fs dest = some (.dir d0)) →
      (∀ q, q <+: dest → q ≠ [] → ∃ dq, lookup fs q = some (.dir dq)) →
      (∀ n ∈ names, ∀ r : Path, lookup fs (dest ++ [n] ++ r) = none) →
      copyEntriesGo recur src dest fs names = some (fs2, none) →
      (∀ n ∈ names, ∀ rest : Path,
        lookup fs2 (dest ++ n :: rest) =
          (lookup fs (src ++ n :: rest)).map copyEntry) ∧
      (∀ q, (∀ n ∈ names, ¬ dest ++ [n] <+: q) → lookup fs2 q = lookup fs q) := by
  intro names
  induction names with
  | nil =>
    intro fs fs2 hwf _ _ _ _ h
    simp only [copyEntriesGo, Option.some_inj, Prod.mk.injEq] at h
    rw [← h.1]
    exact ⟨fun n hn => absurd hn (List.not_mem_nil n), fun q _ => rfl⟩
  | cons n rest ih =>
    intro fs fs2 hwf hnd hdd hpd hfr h
    obtain ⟨d0, hd0⟩ := hdd
    have hfr0 : lookup fs (dest ++ [n]) = none := by
      have := hfr n (List.mem_cons_self n rest) []
      simpa using this
    have hnn : n ∉ rest := (List.nodup_cons.mp hnd).1
    simp only [copyEntriesGo] at h
    cases hstat : lookup fs (src ++ [n]) with
    | none =>
      simp only [hstat] at h
      simp at h
    | some e =>
      cases e with
      | dir dp =>
        simp only [hstat] at h
        cases hmk : mkdirAll fs (dest ++ [n]) 493 with
        | error e2 =>
          simp only [hmk] at h
          simp at h
        | ok fsA =>
          simp only [hmk] at h
          obtain ⟨mA1, mA2, mA3⟩ := mkdirAll_ok_spec fs (dest ++ [n]) 493 fsA hmk
          have hwfA : WF fsA := mkdirAll_WF fs fsA _ _ hwf hmk
          have hA2 : lookup fsA (dest ++ [n]) = some (.dir 493) := by
            rcases mA2 (dest ++ [n]) (List.prefix_refl _) with h1 | ⟨_, _, h3⟩
            · obtain ⟨d, hd⟩ := mA3 (by simp)
              rw [h1, hfr0] at hd
              cases hd
            · exact h3
          have hA3 : ∀ q, q <+: dest → lookup fsA q = lookup fs q := by
            intro q hq
            rcases mA2 q (hq.trans (List.prefix_append dest [n])) with h1 | ⟨hne, hnone, _⟩
            · exact h1
            · obtain ⟨dq, hdq⟩ := hpd q hq hne
              rw [hdq] at hnone
              cases hnone
          cases hrc : recur fsA (src ++ [n]) (dest ++ [n]) with
          | none =>
            simp only [hrc] at h
            exact Option.noConfusion h
          | some out2 =>
            obtain ⟨fsB, oe⟩ := out2
            cases oe with
            | some e2 =>
              simp only [hrc] at h
              simp at h
            | none =>
              simp only [hrc] at h
              obtain ⟨hsA, hsB, hsC, -⟩ := HIH fsA (src ++ [n]) (dest ++ [n]) fsB hwfA
                (by
                  intro r hr
                  rw [mA1 (dest ++ [n] ++ r) (append_not_pre (dest ++ [n]) r hr)]
                  exact hfr n (List.mem_cons_self n rest) r)
                (Or.inr ⟨493, hA2⟩)
                (not_concat_pre_concat src dest n hpre)
                hrc
              have hwfB : WF fsB := Hwfrec fsA _ _ _ hwfA hrc
              have hstep : ∀ q, ¬ dest ++ [n] <+: q →
                  lookup fsB q = lookup fs q := by
                intro q hq
                by_cases hq2 : q <+: dest ++ [n]
                · have hq3 : q <+: dest := by
                    rcases pre_concat_cases q dest n hq2 with heq | h3
                    · exact absurd (List.prefix_refl (dest ++ [n])) (heq ▸ hq)
                    · exact h3
                  have hB_A : lookup fsB q = lookup fsA q := by
                    rcases hsC q hq2 with h1 | ⟨hne, hnone, _⟩
                    · exact h1
                    · obtain ⟨dq, hdq⟩ := hpd q hq3 hne
                      rw [hA3 q hq3, hdq] at hnone
                      cases hnone
                  rw [hB_A, hA3 q hq3]
                · rw [hsB q hq hq2, mA1 q hq2]
              have hdirB : ∃ dB, lookup fsB dest = some (.dir dB) :=
                ⟨d0, by rw [hstep dest (append_not_pre dest [n] (by simp))]; exact hd0⟩
              have hpdB : ∀ q, q <+: dest → q ≠ [] →
                  ∃ dq, lookup fsB q = some (.dir dq) := by
                intro q hq hqne
                obtain ⟨dq, hdq⟩ := hpd q hq hqne
                refine ⟨dq, ?_⟩
                rw [hstep q fun hc => append_not_pre dest [n] (by simp) (hc.trans hq)]
                exact hdq
              have hfrB : ∀ m ∈ rest, ∀ r : Path,
                  lookup fsB (dest ++ [m] ++ r) = none := by
                intro m hm r
                have hmn : m ≠ n := fun heq => hnn (heq ▸ hm)
                rw [hstep (dest ++ [m] ++ r) ?_]
                · exact hfr m (List.mem_cons_of_mem n hm) r
                · intro hc
                  rw [List.append_assoc] at hc
                  exact hmn (concat_pre_head dest n m r hc).symm
              obtain ⟨ha', hb'⟩ := ih fsB fs2 hwfB (List.nodup_cons.mp hnd).2
                hdirB hpdB hfrB h
              constructor
              · intro m hm rest'
                rcases List.mem_cons.mp hm with rfl | hm'
                · have hL : lookup fs2 (dest ++ m :: rest') =
                      lookup fsB (dest ++ m :: rest') := by
                    apply hb'
                    intro m' hm2 hc
                    exact hnn ((concat_pre_head dest m' m rest' hc) ▸ hm2)
                  rw [hL]
                  cases hre : rest' with
                  | nil =>
                    have hBm : lookup fsB (dest ++ [m]) = some (.dir 493) := by
                      rcases hsC (dest ++ [m]) (List.prefix_refl _) with h1 | ⟨_, _, h3⟩
                      · rw [h1]; exact hA2
                      · exact h3
                    rw [show dest ++ m :: ([] : Path) = dest ++ [m] from rfl, hBm,
                      hstat]
                    rfl
                  | cons r1 rs =>
                    rw [cons_append_eq, hsA (r1 :: rs) (by simp),
                      mA1 (src ++ [m] ++ (r1 :: rs))
                        (by
                          rw [List.append_assoc]
                          exact src_not_pre_cone src dest m hpre hdp
                            ([m] ++ (r1 :: rs))),
                      ← cons_append_eq]
                · rw [ha' m hm' rest',
                    hstep (src ++ m :: rest')
                      (cone_not_pre_src src dest n hpre hdp (m :: rest'))]
              · intro q hq
                rw [hb' q fun m hm => hq m (List.mem_cons_of_mem n hm),
                  hstep q (hq n (List.mem_cons_self n rest))]
      | file c pm =>
        simp only [hstat] at h
        have hdl : (dest ++ [n]).dropLast = dest := List.dropLast_concat
        have hmkeq : mkdirAll fs (dest ++ [n]).dropLast 493 = .ok fs := by
          rw [hdl]
          exact mkdirAll_of_dir fs dest 493 d0 hd0
        simp only [hmkeq] at h
        have hopen : openExcl fs (dest ++ [n]) = none := by
          unfold openExcl
          rw [if_neg (by rw [hfr0]; simp)]
          by_cases hdl0 : (dest ++ [n]).dropLast = []
          · rw [if_pos hdl0]
          · rw [if_neg hdl0, hdl, hd0]
        have hcf : CopyFile fs (dest ++ [n]) (src ++ [n]) pm =
            (fsInsert fs (dest ++ [n]) (.file c pm), none) := by
          unfold CopyFile
          rw [hstat, hopen]
        simp only [hcf] at h
        have hstep : ∀ q, q ≠ dest ++ [n] →
            lookup (fsInsert fs (dest ++ [n]) (.file c pm)) q = lookup fs q :=
          fun q hq => lookup_insert_ne fs (dest ++ [n]) q _ hq
        have hwfB : WF (fsInsert fs (dest ++ [n]) (.file c pm)) := by
          apply WF_insert fs _ _ hwf hfr0
          rw [hdl]
          exact Or.inr ⟨d0, hd0⟩
        have hdne : dest ≠ dest ++ [n] := by
          intro hc
          have := congrArg List.length hc
          simp at this
        have hdirB : ∃ dB,
            lookup (fsInsert fs (dest ++ [n]) (.file c pm)) dest =
              some (.dir dB) :=
          ⟨d0, by rw [hstep dest hdne]; exact hd0⟩
        have hpdB : ∀ q, q <+: dest → q ≠ [] →
            ∃ dq, lookup (fsInsert fs (dest ++ [n]) (.file c pm)) q =
              some (.dir dq) := by
          intro q hq hqne
          obtain ⟨dq, hdq⟩ := hpd q hq hqne
          refine ⟨dq, ?_⟩
          rw [hstep q fun hc =>
            append_not_pre dest [n] (by simp) (hc ▸ hq)]
          exact hdq
        have hfrB : ∀ m ∈ rest, ∀ r : Path,
            lookup (fsInsert fs (dest ++ [n]) (.file c pm))
              (dest ++ [m] ++ r) = none := by
          intro m hm r
          have hmn : m ≠ n := fun heq => hnn (heq ▸ hm)
          rw [hstep (dest ++ [m] ++ r) ?_]
          · exact hfr m (List.mem_cons_of_mem n hm) r
          · rw [List.append_assoc]
            exact append_ne_of_ne dest ([m] ++ r) [n]
              (by simp; intro hc; exact fun _ => hmn hc)
        obtain ⟨ha', hb'⟩ := ih (fsInsert fs (dest ++ [n]) (.file c pm)) fs2
          hwfB (List.nodup_cons.mp hnd).2 hdirB hpdB hfrB h
        constructor
        · intro m hm rest'
          rcases List.mem_cons.mp hm with rfl | hm'
          · have hL : lookup fs2 (dest ++ m :: rest') =
                lookup (fsInsert fs (dest ++ [m]) (.file c pm))
                  (dest ++ m :: rest') := by
              apply hb'
              intro m' hm2 hc
              exact hnn ((concat_pre_head dest m' m rest' hc) ▸ hm2)
            rw [hL]
            cases hre : rest' with
            | nil =>
              rw [show dest ++ m :: ([] : Path) = dest ++ [m] from rfl,
                lookup_insert_self, hstat]
              rfl
            | cons r1 rs =>
              rw [hstep (dest ++ m :: r1 :: rs)
                  (append_ne_of_ne dest (m :: r1 :: rs) [m] (by simp)),
                cons_append_eq, hfr m (List.mem_cons_self m rest) (r1 :: rs)]
              have hnone2 : lookup fs (src ++ m :: r1 :: rs) = none := by
                rw [cons_append_eq]
                exact WF_under_file fs hwf (src ++ [m]) (by simp) c pm hstat
                  (r1 :: rs) (by simp)
              rw [hnone2]
              rfl
          · rw [ha' m hm' rest',
              hstep (src ++ m :: rest')
                (fun heq =>
                  cone_not_pre_src src dest n hpre hdp (m :: rest')
                    (heq ▸ List.prefix_refl _))]
        · intro q hq
          rw [hb' q fun m hm => hq m (List.mem_cons_of_mem n hm),
            hstep q
              (fun heq => hq n (List.mem_cons_self n rest)
                (by rw [heq]))]

theorem copyDir_ok_spec :
    ∀ fuel : Nat, ∀ fs : FS, ∀ src dest : Path, ∀ fs2 : FS,
      WF fs →
      (∀ r : Path, r ≠ [] → lookup fs (dest ++ r) = none) →
      (lookup fs dest = none ∨ ∃ d0, lookup fs dest = some (.dir d0)) →
      ¬ src <+: dest →
      CopyDir fuel fs src dest = some (fs2, none) →
      (∀ r : Path, r ≠ [] →
        lookup fs2 (dest ++ r) = (lookup fs (src ++ r)).map copyEntry) ∧
      (∀ q, ¬ dest <+: q → ¬ q <+: dest → lookup fs2 q = lookup fs q) ∧
      (∀ q, q <+: dest → lookup fs2 q = lookup fs q ∨
        (q ≠ [] ∧ lookup fs q = none ∧ lookup fs2 q = some (.dir 493))) ∧
      ¬ dest <+: src := by
  intro fuel
  induction fuel with
  | zero => intro fs src dest fs2 _ _ _ _ h; cases h
  | succ fuel ihf =>
    intro fs src dest fs2 hwf hfresh hdst hpre h
    simp only [CopyDir] at h
    cases hmk : mkdirAll fs dest 493 with
    | error e => simp only [hmk] at h; simp at h
    | ok fs1 =>
      simp only [hmk] at h
      obtain ⟨m1, m2, m3⟩ := mkdirAll_ok_spec fs dest 493 fs1 hmk
      have hwf1 : WF fs1 := mkdirAll_WF fs fs1 _ _ hwf hmk
      cases hrd : readDir fs1 src with
      | error e => simp only [hrd] at h; simp at h
      | ok names =>
        simp only [hrd] at h
        obtain ⟨⟨dsrc, hdsrc⟩, hnames⟩ := readDir_ok fs1 src names hrd
        have hdp : ¬ dest <+: src := by
          intro hc
          obtain ⟨u, hu⟩ := hc
          have hune : u ≠ [] := by
            intro h0
            rw [h0, List.append_nil] at hu
            exact hpre (hu ▸ List.prefix_refl dest)
          have hnone : lookup fs src = none := hu ▸ hfresh u hune
          have h1 : lookup fs src = some (.dir dsrc) := by
            rw [← m1 src hpre]
            exact hdsrc
          rw [hnone] at h1
          cases h1
        have hdne : dest ≠ [] := fun h0 => hdp (h0 ▸ List.nil_prefix)
        have hdir1 : ∃ d0, lookup fs1 dest = some (.dir d0) := m3 hdne
        have hpd1 : ∀ q, q <+: dest → q ≠ [] →
            ∃ dq, lookup fs1 q = some (.dir dq) := by
          intro q hq hqne
          by_cases hqd : q = dest
          · exact hqd ▸ hdir1
          · obtain ⟨d0, hd0⟩ := hdir1
            exact WF_prefix_dirs fs1 hwf1 dest (by rw [hd0]; rfl) q hq hqd hqne
        have hfr1 : ∀ n ∈ names, ∀ r : Path,
            lookup fs1 (dest ++ [n] ++ r) = none := by
          intro n _ r
          rw [List.append_assoc,
            m1 (dest ++ ([n] ++ r)) (append_not_pre dest ([n] ++ r) (by simp))]
          exact hfresh ([n] ++ r) (by simp)
        have hnodup : names.Nodup := hnames ▸ childNames_nodup fs1 src
        obtain ⟨ha', hb'⟩ := copyEntries_ok_spec (CopyDir fuel)
          (fun fsx sx dx fx hw hf hd hp hh => ihf fsx sx dx fx hw hf hd hp hh)
          (fun fsx sx dx ox hw hh => CopyDir_WF fuel fsx sx dx ox hw hh)
          src dest hpre hdp names fs1 fs2 hwf1 hnodup hdir1 hpd1 hfr1 h
        refine ⟨?_, ?_, ?_, hdp⟩
        · intro r hr
          cases r with
          | nil => exact absurd rfl hr
          | cons n rest =>
            by_cases hn : n ∈ names
            · rw [ha' n hn rest]
              congr 1
              exact m1 (src ++ n :: rest)
                fun hc => hpre ((List.prefix_append src (n :: rest)).trans hc)
            · have hl2 : lookup fs2 (dest ++ n :: rest) =
                  lookup fs1 (dest ++ n :: rest) := by
                apply hb'
                intro m hm hc
                exact hn ((concat_pre_head dest m n rest hc) ▸ hm)
              have hl1 : lookup fs1 (dest ++ n :: rest) = none := by
                rw [m1 (dest ++ n :: rest)
                  (append_not_pre dest (n :: rest) (by simp))]
                exact hfresh (n :: rest) (by simp)
              rw [hl2, hl1]
              have hsn : lookup fs1 (src ++ [n]) = none := by
                by_contra hc
                apply hn
                rw [hnames, childNames_mem]
                exact Option.ne_none_iff_isSome.mp hc
              have hsrcn : lookup fs (src ++ [n]) = none := by
                rw [← m1 (src ++ [n])
                  fun hc => hpre ((List.prefix_append src [n]).trans hc)]
                exact hsn
              cases rest with
              | nil =>
                rw [show src ++ n :: ([] : Path) = src ++ [n] from rfl, hsrcn]
                rfl
              | cons r1 rs =>
                have hnone3 : lookup fs (src ++ n :: r1 :: rs) = none := by
                  by_contra hc
                  obtain ⟨dd, hdd2⟩ := WF_ancestor_dir fs hwf (src ++ [n])
                    (r1 :: rs) (by simp) (by simp)
                    (by
                      rw [← cons_append_eq]
                      exact Option.ne_none_iff_isSome.mp hc)
                  rw [hsrcn] at hdd2
                  cases hdd2
                rw [hnone3]
                rfl
        · intro q hq1 hq2
          rw [hb' q fun n _ hc => hq1 ((List.prefix_append dest [n]).trans hc),
            m1 q hq2]
        · intro q hq
          have hB : lookup fs2 q = lookup fs1 q := by
            apply hb'
            intro n _ hc
            exact append_not_pre dest [n] (by simp) (hc.trans hq)
          rw [hB]
          exact m2 q hq

/-! ### Monotonicity: no operation removes or changes an existing entry -/

theorem mkdirAll_mono (fs fs1 : FS) (p : Path) (perm : Nat)
    (h : mkdirAll fs p perm = .ok fs1) :
    ∀ q e, lookup fs q = some e → lookup fs1 q = some e := by
  obtain ⟨m1, m2, _⟩ := mkdirAll_ok_spec fs p perm fs1 h
  intro q e he
  by_cases hq : q <+: p
  · rcases m2 q hq with h1 | ⟨_, hnone, _⟩
    · rw [h1]; exact he
    · rw [hnone] at he; cases he
  · rw [m1 q hq]; exact he

theorem CopyFile_mono (fs : FS) (dest source : Path) (perm : Nat) :
    ∀ q e, lookup fs q = some e →
      lookup (CopyFile fs dest source perm).1 q = some e := by
  intro q e he
  unfold CopyFile
  cases hs : lookup fs source with
  | none => exact he
  | some se =>
    cases ho : openExcl fs dest with
    | some e2 => exact he
    | none =>
      obtain ⟨hnone, -⟩ := openExcl_none fs dest ho
      have hqd : q ≠ dest := by
        intro hc
        rw [hc, hnone] at he
        cases he
      cases se with
      | file c pm =>
        show lookup (fsInsert fs dest (Entry.file c perm)) q = some e
        rw [lookup_insert_ne _ _ _ _ hqd]
        exact he
      | dir d =>
        show lookup (fsInsert fs dest (Entry.file [] perm)) q = some e
        rw [lookup_insert_ne _ _ _ _ hqd]
        exact he

theorem copyEntriesGo_mono
    (recur : FS → Path → Path → Option (FS × Option Err))
    (Hmono : ∀ fsx sx dx out, recur fsx sx dx = some out →
      ∀ q e, lookup fsx q = some e → lookup out.1 q = some e)
    (src dest : Path) :
    ∀ names : List Name, ∀ fs : FS, ∀ out : FS × Option Err,
      copyEntriesGo recur src dest fs names = some out →
      ∀ q e, lookup fs q = some e → lookup out.1 q = some e := by
  intro names
  induction names with
  | nil =>
    intro fs out h q e he
    simp only [copyEntriesGo, Option.some_inj] at h
    rw [← h]
    exact he
  | cons n rest ih =>
    intro fs out h q e he
    simp only [copyEntriesGo] at h
    cases hstat : lookup fs (src ++ [n]) with
    | none =>
      simp only [hstat, Option.some_inj] at h
      rw [← h]
      exact he
    | some se =>
      cases se with
      | dir dp =>
        simp only [hstat] at h
        cases hmk : mkdirAll fs (dest ++ [n]) 493 with
        | error e2 =>
          simp only [hmk, Option.some_inj] at h
          rw [← h]
          exact he
        | ok fsA =>
          simp only [hmk] at h
          have heA := mkdirAll_mono fs fsA _ _ hmk q e he
          cases hrc : recur fsA (src ++ [n]) (dest ++ [n]) with
          | none => simp only [hrc] at h; exact Option.noConfusion h
          | some out2 =>
            obtain ⟨fsB, oe⟩ := out2
            have heB := Hmono fsA _ _ _ hrc q e heA
            cases oe with
            | some e2 =>
              simp only [hrc, Option.some_inj] at h
              rw [← h]
              exact heB
            | none =>
              simp only [hrc] at h
              exact ih fsB out h q e heB
      | file c pm =>
        simp only [hstat] at h
        cases hmk : mkdirAll fs (dest ++ [n]).dropLast 493 with
        | error e2 =>
          simp only [hmk, Option.some_inj] at h
          rw [← h]
          exact he
        | ok fsA =>
          simp only [hmk] at h
          have heA := mkdirAll_mono fs fsA _ _ hmk q e he
          have heB := CopyFile_mono fsA (dest ++ [n]) (src ++ [n]) pm q e heA
          cases hcf : CopyFile fsA (dest ++ [n]) (src ++ [n]) pm with
          | mk fsB oe =>
            rw [hcf] at heB
            simp only [hcf] at h
            cases oe with
            | some e2 =>
              simp only [Option.some_inj] at h
              rw [← h]
              exact heB
            | none => exact ih fsB out h q e heB

theorem CopyDir_mono :
    ∀ fuel : Nat, ∀ fs : FS, ∀ src dest : Path, ∀ out : FS × Option Err,
      CopyDir fuel fs src dest = some out →
      ∀ q e, lookup fs q = some e → lookup out.1 q = some e := by
  intro fuel
  induction fuel with
  | zero => intro fs src dest out h; cases h
  | succ fuel ihf =>
    intro fs src dest out h q e he
    simp only [CopyDir] at h
    cases hmk : mkdirAll fs dest 493 with
    | error e2 =>
      simp only [hmk, Option.some_inj] at h
      rw [← h]
      exact he
    | ok fs1 =>
      simp only [hmk] at h
      have he1 := mkdirAll_mono fs fs1 _ _ hmk q e he
      cases hrd : readDir fs1 src with
      | error e2 =>
        simp only [hrd, Option.some_inj] at h
        rw [← h]
        exact he1
      | ok names =>
        simp only [hrd] at h
        exact copyEntriesGo_mono (CopyDir fuel)
          (fun fsx sx dx ox hx => ihf fsx sx dx ox hx)
          src dest names fs1 out h q e he1

/-! ### A copy into a strict descendant of the source never succeeds -/

theorem copyEntries_nest_no_success
    (recur : FS → Path → Path → Option (FS × Option Err))
    (src dest : Path) (u0 : Name)
    (Hrec : ∀ fsx fx : FS, WF fsx →
      recur fsx (src ++ [u0]) (dest ++ [u0]) ≠ some (fx, none))
    (Hmono : ∀ fsx sx dx out, recur fsx sx dx = some out →
      ∀ q e, lookup fsx q = some e → lookup out.1 q = some e)
    (Hwfrec : ∀ fsx sx dx out, WF fsx → recur fsx sx dx = some out →
      WF out.1) :
    ∀ names : List Name, ∀ fs fs2 : FS, WF fs → u0 ∈ names →
      (∃ dd, lookup fs (src ++ [u0]) = some (.dir dd)) →
      copyEntriesGo recur src dest fs names ≠ some (fs2, none) := by
  intro names
  induction names with
  | nil =>
    intro fs fs2 _ hmem _
    exact absurd hmem (List.not_mem_nil u0)
  | cons n rest ih =>
    intro fs fs2 hwf hmem hdir h
    obtain ⟨dd, hdd⟩ := hdir
    simp only [copyEntriesGo] at h
    by_cases hn : n = u0
    · subst hn
      simp only [hdd] at h
      cases hmk : mkdirAll fs (dest ++ [n]) 493 with
      | error e2 => simp only [hmk] at h; simp at h
      | ok fsA =>
        simp only [hmk] at h
        have hwfA : WF fsA := mkdirAll_WF fs fsA _ _ hwf hmk
        cases hrc : recur fsA (src ++ [n]) (dest ++ [n]) with
        | none => simp only [hrc] at h; exact Option.noConfusion h
        | some out2 =>
          obtain ⟨fsB, oe⟩ := out2
          cases oe with
          | some e2 => simp only [hrc] at h; simp at h
          | none => exact absurd hrc (Hrec fsA fsB hwfA)
    · have hmem' : u0 ∈ rest := by
        rcases List.mem_cons.mp hmem with h0 | h0
        · exact absurd h0.symm hn
        · exact h0
      cases hstat : lookup fs (src ++ [n]) with
      | none => simp only [hstat] at h; simp at h
      | some se =>
        cases se with
        | dir dp =>
          simp only [hstat] at h
          cases hmk : mkdirAll fs (dest ++ [n]) 493 with
          | error e2 => simp only [hmk] at h; simp at h
          | ok fsA =>
            simp only [hmk] at h
            have hwfA : WF fsA := mkdirAll_WF fs fsA _ _ hwf hmk
            have hdA : lookup fsA (src ++ [u0]) = some (.dir dd) :=
              mkdirAll_mono fs fsA _ _ hmk _ _ hdd
            cases hrc : recur fsA (src ++ [n]) (dest ++ [n]) with
            | none => simp only [hrc] at h; exact Option.noConfusion h
            | some out2 =>
              obtain ⟨fsB, oe⟩ := out2
              cases oe with
              | some e2 => simp only [hrc] at h; simp at h
              | none =>
                simp only [hrc] at h
                have hwfB : WF fsB := Hwfrec fsA _ _ _ hwfA hrc
                have hdB := Hmono fsA _ _ _ hrc _ _ hdA
                exact ih fsB fs2 hwfB hmem' ⟨dd, hdB⟩ h
        | file c pm =>
          simp only [hstat] at h
          cases hmk : mkdirAll fs (dest ++ [n]).dropLast 493 with
          | error e2 => simp only [hmk] at h; simp at h
          | ok fsA =>
            simp only [hmk] at h
            have hwfA : WF fsA := mkdirAll_WF fs fsA _ _ hwf hmk
            have hdA : lookup fsA (src ++ [u0]) = some (.dir dd) :=
              mkdirAll_mono fs fsA _ _ hmk _ _ hdd
            have hwfB := CopyFile_WF fsA (dest ++ [n]) (src ++ [n]) pm hwfA
            have hdB := CopyFile_mono fsA (dest ++ [n]) (src ++ [n]) pm _ _ hdA
            cases hcf : CopyFile fsA (dest ++ [n]) (src ++ [n]) pm with
            | mk fsB oe =>
              rw [hcf] at hdB hwfB
              simp only [hcf] at h
              cases oe with
              | some e2 => simp at h
              | none => exact ih fsB fs2 hwfB hmem' ⟨dd, hdB⟩ h

theorem copyDir_nest_no_success :
    ∀ fuel : Nat, ∀ fs : FS, ∀ src dest : Path, ∀ fs2 : FS,
      WF fs → src <+: dest → src ≠ dest →
      CopyDir fuel fs src dest ≠ some (fs2, none) := by
  intro fuel
  induction fuel with
  | zero => intro fs src dest fs2 _ _ _ h; cases h
  | succ fuel ihf =>
    intro fs src dest fs2 hwf hpre hne h
    obtain ⟨u, hu⟩ := hpre
    cases u with
    | nil =>
      rw [List.append_nil] at hu
      exact hne hu
    | cons u0 u' =>
      simp only [CopyDir] at h
      cases hmk : mkdirAll fs dest 493 with
      | error e => simp only [hmk] at h; simp at h
      | ok fs1 =>
        simp only [hmk] at h
        obtain ⟨m1, m2, m3⟩ := mkdirAll_ok_spec fs dest 493 fs1 hmk
        have hwf1 : WF fs1 := mkdirAll_WF fs fs1 _ _ hwf hmk
        cases hrd : readDir fs1 src with
        | error e => simp only [hrd] at h; simp at h
        | ok names =>
          simp only [hrd] at h
          obtain ⟨⟨dsrc, hdsrc⟩, hnames⟩ := readDir_ok fs1 src names hrd
          have hdnil : dest ≠ [] := by rw [← hu]; simp
          have hsu : src ++ [u0] <+: dest := ⟨u', by rw [← hu]; simp⟩
          have hdir1 : ∃ dd, lookup fs1 (src ++ [u0]) = some (.dir dd) := by
            by_cases hsd : src ++ [u0] = dest
            · exact hsd ▸ m3 hdnil
            · obtain ⟨d0, hd0⟩ := m3 hdnil
              exact WF_prefix_dirs fs1 hwf1 dest (by rw [hd0]; rfl)
                (src ++ [u0]) hsu hsd (by simp)
          have hmem : u0 ∈ names := by
            rw [hnames, childNames_mem]
            obtain ⟨dd, hdd⟩ := hdir1
            rw [hdd]
            rfl
          have hsub_pre : src ++ [u0] <+: dest ++ [u0] := by
            refine ⟨u' ++ [u0], ?_⟩
            rw [← hu]
            simp
          have hsub_ne : src ++ [u0] ≠ dest ++ [u0] := by
            intro hc
            exact hne (List.append_cancel_right hc)
          exact copyEntries_nest_no_success (CopyDir fuel) src dest u0
            (fun fsx fx hwfx =>
              ihf fsx (src ++ [u0]) (dest ++ [u0]) fx hwfx hsub_pre hsub_ne)
            (fun fsx sx dx ox hx => CopyDir_mono fuel fsx sx dx ox hx)
            (fun fsx sx dx ox hwx hx => CopyDir_WF fuel fsx sx dx ox hwx hx)
            names fs1 fs2 hwf1 hmem hdir1 h

/-! ### Claim C3 -/

theorem isDirAt_iff (fs : FS) (q : Path) :
    isDirAt fs q = true ↔ ∃ d, lookup fs q = some (.dir d) := by
  unfold isDirAt
  cases hl : lookup fs q with
  | none => simp
  | some e =>
    cases e with
    | file c pm => simp
    | dir d => simp

theorem WF_of_entries (fs : FS)
    (h : ∀ pe ∈ fs, pe.1.dropLast = [] ∨ isDirAt fs pe.1.dropLast = true) :
    WF fs := by
  intro p n hpn
  rw [lookup_isSome_iff] at hpn
  obtain ⟨pe, hpe, hp1⟩ := hpn
  have h2 := h pe hpe
  rw [hp1, List.dropLast_concat] at h2
  rcases h2 with h2 | h2
  · exact Or.inl h2
  · exact Or.inr ((isDirAt_iff fs p).mp h2)

theorem fresh_of_entries (fs : FS) (dest : Path)
    (h : ∀ pe ∈ fs, ¬ dest <+: pe.1) :
    ∀ r : Path, lookup fs (dest ++ r) = none := by
  intro r
  rw [lookup_none_iff]
  intro pe hpe heq
  exact h pe hpe (by rw [heq]; exact List.prefix_append dest r)

/-- C3 counterexample: when the destination directory already exists and
holds a stray file `z`, `CopyDir` still succeeds, but afterwards the set
of relative paths under the destination (`x` and `z`) differs from the
set under the source (`x` only), refuting the claim as stated for
arbitrary initial destination states. -/
theorem c3_counterexample :
    CopyDir 2 fsCX [gs "src"] [gs "dst"] = some (fsCX', none) ∧
    (lookup fsCX' ([gs "dst"] ++ [gs "z"])).isSome = true ∧
    lookup fsCX' ([gs "src"] ++ [gs "z"]) = none := by
  refine ⟨by decide, by decide, by decide⟩

/-- C3 amended: on a well-formed file system in which nothing exists at
or under `destDir`, a successful `CopyDir srcDir destDir` makes the set
of relative paths under `destDir` equal to the set under `srcDir`,
preserving every copied file's byte content and permission bits, and
re-creating every source subdirectory as a directory with permission
`0o755` (the decimal `493`). -/
theorem c3_copyDir_fidelity (fuel : Nat) (fs fs2 : FS) (src dest : Path)
    (hwf : WF fs)
    (hfresh : ∀ r : Path, lookup fs (dest ++ r) = none)
    (hok : CopyDir fuel fs src dest = some (fs2, none)) :
    ∀ r : Path, r ≠ [] →
      ((lookup fs2 (dest ++ r)).isSome ↔ (lookup fs2 (src ++ r)).isSome) ∧
      (∀ c pm, lookup fs2 (src ++ r) = some (.file c pm) →
        lookup fs2 (dest ++ r) = some (.file c pm)) ∧
      (∀ d, lookup fs2 (src ++ r) = some (.dir d) →
        lookup fs2 (dest ++ r) = some (.dir 493)) := by
  by_cases hsd : src = dest
  · subst hsd
    cases fuel with
    | zero => cases hok
    | succ fuel =>
      simp only [CopyDir] at hok
      cases hmk : mkdirAll fs src 493 with
      | error e => simp only [hmk] at hok; simp at hok
      | ok fs1 =>
        simp only [hmk] at hok
        obtain ⟨m1, m2, m3⟩ := mkdirAll_ok_spec fs src 493 fs1 hmk
        cases hrd : readDir fs1 src with
        | error e => simp only [hrd] at hok; simp at hok
        | ok names =>
          simp only [hrd] at hok
          obtain ⟨⟨d0, hd0⟩, hnames⟩ := readDir_ok fs1 src names hrd
          cases names with
          | cons n rest =>
            exfalso
            have hn : n ∈ childNames fs1 src := by
              rw [← hnames]
              exact List.mem_cons_self n rest
            have hs := (childNames_mem fs1 src n).mp hn
            rw [m1 (src ++ [n]) (append_not_pre src [n] (by simp)),
              hfresh [n]] at hs
            cases hs
          | nil =>
            simp only [copyEntriesGo, Option.some_inj, Prod.mk.injEq] at hok
            obtain ⟨hfs2, -⟩ := hok
            intro r hr
            have hnone : lookup fs2 (src ++ r) = none := by
              rw [← hfs2, m1 (src ++ r) (append_not_pre src r hr)]
              exact hfresh r
            refine ⟨Iff.rfl, ?_, ?_⟩
            · intro c pm hcc
              rw [hnone] at hcc
              cases hcc
            · intro d hd
              rw [hnone] at hd
              cases hd
  by_cases hnest : src <+: dest
  · exact absurd hok (copyDir_nest_no_success fuel fs src dest fs2 hwf hnest hsd)
  obtain ⟨A, B, C, D⟩ := copyDir_ok_spec fuel fs src dest fs2 hwf
    (fun r _ => hfresh r)
    (Or.inl (by have := hfresh []; rwa [List.append_nil] at this))
    hnest hok
  intro r hr
  have hstab : lookup fs2 (src ++ r) = lookup fs (src ++ r) := by
    apply B
    · intro hc
      rcases List.prefix_or_prefix_of_prefix hc (List.prefix_append src r)
        with h1 | h1
      · exact D h1
      · exact hnest h1
    · intro hc
      exact hnest ((List.prefix_append src r).trans hc)
  rw [A r hr, hstab]
  cases hy : lookup fs (src ++ r) with
  | none => simp
  | some e =>
    cases e with
    | file c pm => simp [copyEntry]
    | dir d => simp [copyEntry]

/-- C3 witness: the fidelity theorem applied to a concrete source tree
copied to a fresh destination, evaluated at the relative path `a`. -/
theorem c3_witness :
    ((lookup fsC3' ([gs "t"] ++ [gs "a"])).isSome ↔
      (lookup fsC3' ([gs "s"] ++ [gs "a"])).isSome) ∧
    (∀ c pm, lookup fsC3' ([gs "s"] ++ [gs "a"]) = some (.file c pm) →
      lookup fsC3' ([gs "t"] ++ [gs "a"]) = some (.file c pm)) ∧
    (∀ d, lookup fsC3' ([gs "s"] ++ [gs "a"]) = some (.dir d) →
      lookup fsC3' ([gs "t"] ++ [gs "a"]) = some (.dir 493)) :=
  c3_copyDir_fidelity 2 fsC3 fsC3' [gs "s"] [gs "t"]
    (WF_of_entries fsC3 (by decide))
    (fresh_of_entries fsC3 [gs "t"] (by decide))
    (by decide) [gs "a"] (by decide)

/-! ### Hashing lemmas -/

theorem chunksGo_nil (n : Nat) : chunksGo n [] = [] := by
  rw [chunksGo.eq_def]

theorem chunksGo_cons (n a : Nat) (l' : List Nat) (h : n ≠ 0) :
    chunksGo n (a :: l') = (a :: l').take n :: chunksGo n ((a :: l').drop n) := by
  rw [chunksGo.eq_def]
  simp [h]

theorem chunks_foldl_bounded (n : Nat) (hn : n ≠ 0) :
    ∀ k, ∀ l : List Nat, l.length ≤ k → ∀ acc,
      (chunksGo n l).foldl (fun a c => a ++ c) acc = acc ++ l := by
  intro k
  induction k with
  | zero =>
    intro l hl acc
    rw [List.length_eq_zero.mp (Nat.le_zero.mp hl), chunksGo_nil]
    simp
  | succ k ih =>
    intro l hl acc
    cases l with
    | nil => rw [chunksGo_nil]; simp
    | cons a l' =>
      rw [chunksGo_cons n a l' hn, List.foldl_cons]
      rw [ih ((a :: l').drop n)
        (by
          simp only [List.length_drop, List.length_cons]
          simp only [List.length_cons] at hl
          omega)
        (acc ++ (a :: l').take n)]
      rw [List.append_assoc, List.take_append_drop]

theorem feedChunks_eq (l : List Nat) : feedChunks l = l := by
  unfold feedChunks
  rw [chunks_foldl_bounded 32768 (by decide) l.length l le_rfl []]
  rfl

theorem hexEncode_length (bs : List Nat) :
    (hexEncode bs).length = 2 * bs.length := by
  induction bs with
  | nil => rfl
  | cons b bs ih =>
    rw [hexEncode, List.flatMap_cons] at *
    simp only [List.length_append, ih]
    simp [hexEncodeByte]
    omega

theorem hexDigits_getD_mem (i : Nat) : hexDigits.getD i '0' ∈ hexDigits := by
  by_cases h : i < hexDigits.length
  · rw [List.getD_eq_getElem hexDigits '0' h]
    exact List.getElem_mem h
  · rw [List.getD_eq_default hexDigits '0' (Nat.le_of_not_lt h)]
    decide

theorem hexEncode_mem (bs : List Nat) : ∀ c ∈ hexEncode bs, c ∈ hexDigits := by
  intro c hc
  rw [hexEncode, List.mem_flatMap] at hc
  obtain ⟨b, _, hcb⟩ := hc
  rcases List.mem_cons.mp hcb with rfl | hcb'
  · exact hexDigits_getD_mem _
  · rw [List.mem_singleton] at hcb'
    exact hcb' ▸ hexDigits_getD_mem _

theorem hexEncodeInto_full (src : List Nat) (h : src.length = 32) :
    hexEncodeInto (List.replicate 64 (Char.ofNat 0)) src = hexEncode src := by
  unfold hexEncodeInto
  rw [h]
  rw [List.drop_eq_nil_of_le (by simp), List.append_nil]
  have h64 : (hexEncode src).length = 64 := by rw [hexEncode_length, h]
  rw [show (List.replicate 64 (Char.ofNat 0)).length = 64 by simp, ← h64,
    List.take_length]

/-- C9: the two `HashFile` implementations (pooled copy buffers versus
direct streaming with the zero-copy string cast) are extensionally
equivalent: they fail on exactly the same inputs and, on success, both
return the 64-character lowercase hex encoding of the digest of the
file's bytes (`H` abstracts the SHA-256 state, producing 32-byte sums). -/
theorem c9_hash_variants_equivalent (H : List Nat → List Nat)
    (hH : ∀ x, (H x).length = 32) (fs : HFS) (path : GoStr) :
    HashFilePooled H fs path = HashFileStream H fs path ∧
    (∀ f, fs path = some f → f.readErr = false →
      HashFilePooled H fs path = .ok (hexEncode (H f.content)) ∧
      (hexEncode (H f.content)).length = 64 ∧
      ∀ c ∈ hexEncode (H f.content), c ∈ hexDigits) ∧
    (fs path = none → HashFilePooled H fs path = .error .notFound) ∧
    (∀ f, fs path = some f → f.readErr = true →
      HashFilePooled H fs path = .error .readFail) := by
  have hok : ∀ f : GoFile, f.readErr = false →
      HashFilePooled H fs path = HashFileStream H fs path →
      True := fun _ _ _ => trivial
  refine ⟨?_, ?_, ?_, ?_⟩
  · unfold HashFilePooled HashFileStream
    cases hf : fs path with
    | none => rfl
    | some f =>
      cases hre : f.readErr with
      | true => simp [hre]
      | false =>
        simp only [hre, if_false, Bool.false_eq_true]
        rw [hexEncodeInto_full (H (feedChunks f.content)) (hH _)]
        rw [hH _]
        have h64 : (hexEncode (H (feedChunks f.content))).length = 64 := by
          rw [hexEncode_length, hH _]
        rw [show 2 * 32 = 64 by rfl, ← h64, List.take_length]
  · intro f hf hre
    refine ⟨?_, by rw [hexEncode_length, hH _], hexEncode_mem _⟩
    unfold HashFilePooled
    rw [hf]
    simp only [hre, if_false, Bool.false_eq_true]
    rw [hexEncodeInto_full (H (feedChunks f.content)) (hH _), hH _]
    have h64 : (hexEncode (H (feedChunks f.content))).length = 64 := by
      rw [hexEncode_length, hH _]
    rw [show 2 * 32 = 64 by rfl, ← h64, List.take_length, feedChunks_eq]
  · intro hf
    unfold HashFilePooled
    rw [hf]
  · intro f hf hre
    unfold HashFilePooled
    rw [hf]
    simp [hre]

/-- C9 witness: the equivalence applied to a concrete hash function,
file system and path. -/
theorem c9_witness :
    HashFilePooled (fun _ => List.replicate 32 0)
        (fun _ => some ⟨[1, 2, 3], false⟩) (gs "f") =
      HashFileStream (fun _ => List.replicate 32 0)
        (fun _ => some ⟨[1, 2, 3], false⟩) (gs "f") :=
  (c9_hash_variants_equivalent (fun _ => List.replicate 32 0)
    (fun _ => by simp) (fun _ => some ⟨[1, 2, 3], false⟩) (gs "f")).1

end LlmCtxEnv
